import Mathlib

/-!
# Verification of the astra backend core against its specification

This file gives a shallow embedding, in Lean 4, of the pure core of the
astra retrieval-augmented QA backend:

* `backend/app/core/text_utils.py`  — text normalisation,
* `backend/app/core/chunking.py`    — overlapping text chunking,
* `backend/app/core/indexing.py`    — batched embedding indexing with
  OOM-adaptive batch sizes,
* `backend/app/core/query.py`       — LRU cache and context assembly,
* `backend/app/core/parsers/base.py` — file-type detection.

Python strings are modelled as `List Char`; Python `int` as `Nat`/`Int`
with explicit arithmetic; fallible code returns `Option`/`Except`.
Each definition mirrors the control flow of the corresponding Python
function; places where the model makes a choice (e.g. Unicode lowercase
is modelled on ASCII only) are documented at the definition.
-/

namespace Astra

/-! ## Character classes

Python's `str.strip` / `str.rstrip` (without arguments) and
`str.isspace` use the Unicode whitespace set; `pyIsSpace` lists exactly
those codepoints. -/

/-- Codepoints Python treats as whitespace in `str.strip`, `str.rstrip`
and `str.isspace`: U+0009–U+000D, U+001C–U+001F, space, U+0085, U+00A0,
U+1680, U+2000–U+200A, U+2028, U+2029, U+202F, U+205F, U+3000. -/
def pyIsSpace (c : Char) : Bool :=
  let n := c.toNat
  (9 ≤ n && n ≤ 13) || (28 ≤ n && n ≤ 31) || n == 32 || n == 0x85 ||
    n == 0xa0 || n == 0x1680 || (0x2000 ≤ n && n ≤ 0x200a) ||
    n == 0x2028 || n == 0x2029 || n == 0x202f || n == 0x205f || n == 0x3000

/-- Characters removed by step 4 of `normalize_text`
(regex `[\x00-\x08\x0b-\x0c\x0e-\x1f\x7f-\x9f]`). -/
def isRemovedCtrl (c : Char) : Bool :=
  let n := c.toNat
  n ≤ 8 || n == 0xb || n == 0xc || (0xe ≤ n && n ≤ 0x1f) ||
    (0x7f ≤ n && n ≤ 0x9f)

/-- Characters replaced by a single space in step 5 of `normalize_text`
(regex `[ -​ - 　]`). -/
def isSubstitutedUniSpace (c : Char) : Bool :=
  let n := c.toNat
  (0x2000 ≤ n && n ≤ 0x200b) || n == 0x2028 || n == 0x2029 || n == 0x3000

/-- Python `str.lower`, modelled on the ASCII letters only (all
concrete inputs of the development are ASCII; other codepoints are kept
unchanged by the model). -/
def pyToLower (c : Char) : Char :=
  if 'A' ≤ c && c ≤ 'Z' then Char.ofNat (c.toNat + 32) else c

/-! ## List-of-characters utilities mirroring Python string methods -/

/-- Python `text.split(sep)` for a one-character separator: `""` splits
to `[""]`, a trailing separator yields a trailing empty part. -/
def splitOnChar (sep : Char) : List Char → List (List Char)
  | [] => [[]]
  | c :: cs =>
    if c = sep then [] :: splitOnChar sep cs
    else
      match splitOnChar sep cs with
      | [] => [[c]]
      | l :: ls => (c :: l) :: ls

/-- Python `text.split("\n")`. -/
def splitLines : List Char → List (List Char) :=
  splitOnChar '\n'

/-- Python `"\n".join(lines)`. -/
def joinLines : List (List Char) → List Char
  | [] => []
  | [l] => l
  | l :: ls => l ++ '\n' :: joinLines ls

/-- Python `line.rstrip()`. -/
def rstripLine (l : List Char) : List Char :=
  (l.reverse.dropWhile pyIsSpace).reverse

/-- Python `text.strip()`. -/
def stripEnds (l : List Char) : List Char :=
  rstripLine (l.dropWhile pyIsSpace)

/-- Python `text.replace("\r\n", "\n")`: left-to-right, non-overlapping. -/
def replaceCRLF : List Char → List Char
  | [] => []
  | '\r' :: '\n' :: cs => '\n' :: replaceCRLF cs
  | c :: cs => c :: replaceCRLF cs

/-- Step 1 of `normalize_text`:
`text.replace("\r\n", "\n").replace("\r", "\n")`. -/
def replaceCR (l : List Char) : List Char :=
  (replaceCRLF l).map (fun c => if c = '\r' then '\n' else c)

/-- Scan for steps 2 and 8 of `normalize_text`
(`re.sub(r"\n{3,}", "\n\n", text)`): `k` counts the newlines already
kept in the current run (saturated at 2); the first two newlines of
each maximal run are kept, the rest dropped — exactly the regex's
effect of turning every run of at least three newlines into two. -/
def collapseNLAux : Nat → List Char → List Char
  | _, [] => []
  | k, c :: cs =>
    if c = '\n' then
      if 2 ≤ k then collapseNLAux 2 cs
      else '\n' :: collapseNLAux (k + 1) cs
    else c :: collapseNLAux 0 cs

/-- Steps 2 and 8 of `normalize_text`: `re.sub(r"\n{3,}", "\n\n", text)`
— every maximal run of at least three newlines becomes exactly two. -/
def collapseNewlines (l : List Char) : List Char :=
  collapseNLAux 0 l

/-- Scan for step 6 of `normalize_text` (`re.sub(r" {2,}", " ", text)`):
the flag records whether the previous character was a (kept) space;
every maximal run of at least two spaces becomes one. -/
def collapseSPAux : Bool → List Char → List Char
  | _, [] => []
  | prev, c :: cs =>
    if c = ' ' then
      if prev then collapseSPAux true cs
      else ' ' :: collapseSPAux true cs
    else c :: collapseSPAux false cs

/-- Step 6 of `normalize_text`: `re.sub(r" {2,}", " ", text)` — every
maximal run of spaces becomes a single space (runs of one are already
single). -/
def collapseSpaces (l : List Char) : List Char :=
  collapseSPAux false l

/-! ## `text_utils.remove_repeated_headers_footers` -/

/-- `line.strip().lower()` — the normalised form a line is counted by. -/
def normLine (l : List Char) : List Char :=
  (stripEnds l).map pyToLower

/-- Number of lines whose normalised form is `form` (the value
`line_counts[form]` ends up with, for forms with `0 < len < 100`). -/
def countForm (lines : List (List Char)) (form : List Char) : Nat :=
  (lines.filter (fun l => normLine l = form)).length

/-- Membership of a normalised form in `repeated_lines`: counted forms
are the non-empty ones shorter than 100 characters, and a form
qualifies when its count reaches `minRepeats`. -/
def isBoilerplate (lines : List (List Char)) (minRepeats : Nat)
    (form : List Char) : Bool :=
  0 < form.length && form.length < 100 && minRepeats ≤ countForm lines form

/-- The filtering loop of `remove_repeated_headers_footers`: keep the
first occurrence of each boilerplate form (tracked in `seen`), drop the
rest, keep all other lines. -/
def removeBoilerAux (orig : List (List Char)) (minRepeats : Nat) :
    List (List Char) → List (List Char) → List (List Char)
  | _, [] => []
  | seen, l :: ls =>
    let f := normLine l
    if isBoilerplate orig minRepeats f then
      if f ∈ seen then removeBoilerAux orig minRepeats seen ls
      else l :: removeBoilerAux orig minRepeats (f :: seen) ls
    else l :: removeBoilerAux orig minRepeats seen ls

/-- `text_utils.remove_repeated_headers_footers(text, min_repeats)`.
Returns the text unchanged when it has fewer than `min_repeats * 2`
lines, or when no line qualifies as boilerplate. -/
def remove_repeated_headers_footers (text : List Char) (minRepeats : Nat) :
    List Char :=
  let lines := splitLines text
  if lines.length < minRepeats * 2 then text
  else if lines.all (fun l => !(isBoilerplate lines minRepeats (normLine l))) then
    text
  else joinLines (removeBoilerAux lines minRepeats [] lines)

/-! ## `text_utils.normalize_text` -/

/-- `text_utils.normalize_text(text)`, step for step:
line endings, newline collapse, per-line rstrip, control-character
removal, Unicode-space substitution, space collapse, repeated
header/footer removal, newline collapse, outer strip. -/
def normalize_text (text : List Char) : List Char :=
  if text = [] then []
  else
    let t1 := replaceCR text
    let t2 := collapseNewlines t1
    let t3 := joinLines ((splitLines t2).map rstripLine)
    let t4 := t3.filter (fun c => !(isRemovedCtrl c))
    let t5 := t4.map (fun c => if isSubstitutedUniSpace c then ' ' else c)
    let t6 := collapseSpaces t5
    let t7 := remove_repeated_headers_footers t6 3
    let t8 := collapseNewlines t7
    stripEnds t8

/-! ## `chunking.chunk_text`

The chunker is modelled for `pages=None` (the `pages` argument only
affects the auxiliary `page_number` field of a chunk, which none of the
verified properties mention; the model keeps the field at `none`).
The unbounded Python `while` loop is modelled with explicit fuel:
`chunkLoop … fuel …` returns `some chunks` exactly when the Python loop
reaches one of its `break`/exit points within `fuel` iterations, and
`none` when the fuel runs out first. -/

/-- A chunk record (`chunking.Chunk`). -/
structure TChunk where
  text : List Char
  start_char : Nat
  end_char : Nat
  chunk_id : Nat
  page_number : Option Nat
deriving Repr, DecidableEq

/-- `text[i]` under a guard that is always established by the caller
(the default is never exposed when the surrounding bounds checks mirror
the Python ones). -/
def charAt (text : List Char) (i : Nat) : Char :=
  text.getD i '\x00'

/-- First scan of `_find_break_point`: a sentence terminator followed by
whitespace (the disjunct `i == len(text)-1` is kept from the source even
though it is unreachable under `i < len(text)-1`). -/
def sentCheck (text : List Char) (i : Nat) : Bool :=
  let N := text.length
  decide (i < N - 1) &&
    ((charAt text i == '.') || (charAt text i == '!') || (charAt text i == '?')) &&
    (decide (i == N - 1) || pyIsSpace (charAt text (i + 1)))

/-- Second scan of `_find_break_point`: a newline immediately following
another newline (or at position 0). -/
def paraCheck (text : List Char) (i : Nat) : Bool :=
  let N := text.length
  decide (i < N - 1) && (charAt text i == '\n') &&
    (decide (i == 0) || (charAt text (i - 1) == '\n'))

/-- Third scan of `_find_break_point`: a whitespace-to-non-whitespace
transition. -/
def wordCheck (text : List Char) (i : Nat) : Bool :=
  let N := text.length
  decide (i < N - 1) && pyIsSpace (charAt text i) && !(pyIsSpace (charAt text (i + 1)))

/-- The backward scan as structural recursion on the number of
remaining positions: at `k = 0` the scan is at its last position. -/
def downScanAux (check : Nat → Bool) : Nat → Nat → Option Nat
  | i, 0 => if check i then some (i + 1) else none
  | i, k + 1 => if check i then some (i + 1) else downScanAux check (i - 1) k

/-- `for i in range(position, search_start - 1, -1): if check i: return i+1`
— scan `i` downwards from `i` to `lo` inclusive, returning `i + 1` at
the first hit (`i - lo` remaining positions after the first). -/
def downScan (check : Nat → Bool) (i lo : Nat) : Option Nat :=
  downScanAux check i (i - lo)

/-- `chunking._find_break_point(text, position, lookback)` with its
three prioritised backward scans; falls back to `position`. -/
def find_break_point (text : List Char) (position lookback : Nat) : Nat :=
  let searchStart := position - lookback
  match downScan (sentCheck text) position searchStart with
  | some r => r
  | none =>
    match downScan (paraCheck text) position searchStart with
    | some r => r
    | none =>
      match downScan (wordCheck text) position searchStart with
      | some r => r
      | none => position

/-- Python `text[start:end]` (clamping slice semantics). -/
def slice (text : List Char) (start stop : Nat) : List Char :=
  (text.drop start).take (stop - start)

/-- The `end` position of one iteration of `chunk_text` after the
break-point search: `end = min(start + chunk_size, N)`, replaced by the
break point when `end < N` and the break point lies strictly beyond
`start + min_chunk_size`. -/
def chunkEnd (text : List Char) (cs mincs start : Nat) : Nat :=
  let N := text.length
  let end0 := min (start + cs) N
  if end0 < N then
    let bp := find_break_point text end0 (cs / 4)
    if start + mincs < bp then bp else end0
  else end0

/-- The final `end` of one iteration: when the stripped chunk text is
shorter than `min_chunk_size` and the end is not at the text's end,
extend (or shrink) to `min(start + min_chunk_size, N)`. -/
def chunkEnd2 (text : List Char) (cs mincs start : Nat) : Nat :=
  let end1 := chunkEnd text cs mincs start
  if (stripEnds (slice text start end1)).length < mincs ∧ end1 < text.length then
    min (start + mincs) text.length
  else end1

/-- The chunk text of one iteration: `text[start:end].strip()` at the
final end position (in the non-extended branch the final end *is*
`end1`, so this covers both branches of the source). -/
def chunkContent (text : List Char) (cs mincs start : Nat) : List Char :=
  stripEnds (slice text start (chunkEnd2 text cs mincs start))

/-- One execution of the `while start < text_length` loop of
`chunk_text`, with explicit fuel. State: `start`, the running
`chunk_id` and the accumulated chunk list. -/
def chunkLoop (text : List Char) (cs ov mincs : Nat) :
    Nat → Nat → Nat → List TChunk → Option (List TChunk)
  | 0, _, _, _ => none
  | fuel + 1, start, cid, acc =>
    if start < text.length then
      let e := chunkEnd2 text cs mincs start
      let content := chunkContent text cs mincs start
      let acc2 := if content.isEmpty then acc
        else acc ++ [⟨content, start, e, cid, none⟩]
      let cid2 := if content.isEmpty then cid else cid + 1
      if text.length ≤ e then some acc2
      else chunkLoop text cs ov mincs fuel (e - ov) cid2 acc2
    else some acc

/-- The parameter guard of `chunk_text`: if `overlap >= chunk_size`,
replace the overlap by `max(1, chunk_size // 10)` (computed from the
*original* chunk size); then clamp `chunk_size` into
`[min_chunk_size, max_chunk_size]`. Returns `(chunk_size, overlap)`. -/
def clampParams (cs ov mincs maxcs : Nat) : Nat × Nat :=
  let ov2 := if cs ≤ ov then max 1 (cs / 10) else ov
  let cs1 := if maxcs < cs then maxcs else cs
  let cs2 := if cs1 < mincs then mincs else cs1
  (cs2, ov2)

/-- `chunking.chunk_text(text, chunk_size, chunk_overlap,
min_chunk_size, max_chunk_size)` for `pages=None`, with explicit fuel
for the while loop. -/
def chunk_text (text : List Char) (cs ov mincs maxcs fuel : Nat) :
    Option (List TChunk) :=
  if text.isEmpty || (stripEnds text).length = 0 then some []
  else
    let p := clampParams cs ov mincs maxcs
    chunkLoop text p.1 p.2 mincs fuel 0 0 []

/-! ## `indexing.EmbeddingIndexer.index_document_chunks`

The indexer is modelled over:
* the document's chunk rows (`DbChunk`, ordered by `chunk_id` as the
  database query returns them),
* the vector store as a list of `(id, doc_id)` entries (the other
  payload fields — vectors, texts, metadata — play no role in the
  verified properties),
* the embedder as a pure function from `(texts, batch_size)` to an
  outcome: success, `OutOfMemory`, or another error.  The spec fixes
  the embedder to be deterministic, and `generate_embeddings` returns
  one vector per input text, so a successful call contributes
  `len(texts)` entries to `all_embeddings`. -/

/-- A chunk row as `index_document_chunks` reads it from the database. -/
structure DbChunk where
  chunk_id : Nat
  text : List Char
deriving Repr, DecidableEq

/-- Outcome of one `generate_embeddings` call, as classified by
`_generate_embeddings_batch`: success, `MemoryError` (OOM), or any
other exception. -/
inductive EmbOutcome where
  | ok : EmbOutcome
  | oom : EmbOutcome
  | err : EmbOutcome
deriving Repr, DecidableEq

/-- The embedder: texts and `batch_size` to an outcome. -/
def Embedder : Type := List (List Char) → Nat → EmbOutcome

/-- The composite vector-store id `f"{doc_id}_{chunk.chunk_id}"`. -/
def compositeId (docId : List Char) (chunkId : Nat) : List Char :=
  docId ++ '_' :: (Nat.repr chunkId).data

/-- The vector store: entries `(id, doc_id)`. -/
structure VStore where
  entries : List (List Char × List Char)
deriving Repr, DecidableEq

/-- `collection.get(where={"doc_id": d})["ids"]`. -/
def VStore.idsFor (s : VStore) (docId : List Char) : List (List Char) :=
  (s.entries.filter (fun e => e.2 = docId)).map (fun e => e.1)

/-- `collection.count()`. -/
def VStore.count (s : VStore) : Nat := s.entries.length

/-- `add_embeddings_to_chroma` upserts by id: entries with a colliding
id are replaced, the new entries are appended. -/
def VStore.add (s : VStore) (ids : List (List Char)) (docId : List Char) :
    VStore :=
  ⟨s.entries.filter (fun e => !(ids.contains e.1)) ++
    ids.map (fun i => (i, docId))⟩

/-- The loop state of the batch loop: `self.current_batch_size`, the
accumulated `all_ids` (one per successfully embedded chunk, in order;
`len(all_embeddings) = len(all_ids)` throughout), the `metrics.errors`
count and `metrics.batches_processed`. -/
structure IndexState where
  cur : Nat
  ids : List (List Char)
  errors : Nat
  batches : Nat
deriving Repr, DecidableEq

/-- One iteration of
`for batch_idx in range(0, len(chunk_texts), self.current_batch_size)`:
slice the batch with the *current* batch size, embed, on OOM halve
(floored at `min_batch_size`) and retry once; a failing retry or a
non-OOM error is recorded and the batch skipped (at minimum batch size
the OOM is recorded twice: once by the inner handler, once by the
outer one that catches the re-raise). -/
def batchStep (emb : Embedder) (docId : List Char)
    (chunksToIndex : List DbChunk) (minBs : Nat)
    (st : IndexState) (batchIdx : Nat) : IndexState :=
  let batchChunks := (chunksToIndex.drop batchIdx).take st.cur
  let batchTexts := batchChunks.map (fun c => c.text)
  let newIds := batchChunks.map (fun c => compositeId docId c.chunk_id)
  match emb batchTexts st.cur with
  | .ok => { st with ids := st.ids ++ newIds, batches := st.batches + 1 }
  | .err => { st with errors := st.errors + 1 }
  | .oom =>
    if minBs < st.cur then
      let newBs := max minBs (st.cur / 2)
      match emb batchTexts newBs with
      | .ok => { st with cur := newBs, ids := st.ids ++ newIds,
                         batches := st.batches + 1 }
      | _ => { st with cur := newBs, errors := st.errors + 1 }
    else { st with errors := st.errors + 2 }

/-- Python `range(0, n, step)` for `step ≥ 1` (Python raises
`ValueError` on step 0; the model returns `[]` there and every theorem
that touches the loop assumes `1 ≤ step`). -/
def pyRange (n step : Nat) : List Nat :=
  if step = 0 then [] else (List.range ((n + step - 1) / step)).map (fun i => i * step)

/-- Result of `index_document_chunks` (the fields of the returned
dictionary that the verified properties mention, plus the indexer's
`current_batch_size` attribute after the call). -/
structure IndexResult where
  chunks_indexed : Nat
  total_chunks : Nat
  collection_size : Nat
  errors : Nat
  batches_processed : Nat
  current_batch_size : Nat
deriving Repr, DecidableEq

/-- `indexing.EmbeddingIndexer.index_document_chunks(db, doc_id,
skip_existing)` over a document whose ordered chunk rows are `chunks`:
dedup against the store when `skip_existing`, reset
`current_batch_size` to `initial_batch_size`, run the batch loop over
indices `range(0, n, initial_batch_size)` (the range step is fixed
once; the slices inside the loop use the *current* batch size), then
persist all accumulated ids in one `add`. Returns the result and the
updated store. -/
def index_document_chunks (emb : Embedder) (store : VStore)
    (docId : List Char) (chunks : List DbChunk) (skipExisting : Bool)
    (initBs minBs : Nat) : IndexResult × VStore :=
  if chunks.isEmpty then
    (⟨0, 0, store.count, 0, 0, initBs⟩, store)
  else
    let chunksToIndex :=
      if skipExisting then
        let existing := store.idsFor docId
        chunks.filter (fun c => !(existing.contains (compositeId docId c.chunk_id)))
      else chunks
    if chunksToIndex.isEmpty then
      (⟨0, chunks.length, store.count, 0, 0, initBs⟩, store)
    else
      let st0 : IndexState := ⟨initBs, [], 0, 0⟩
      let stF := (pyRange chunksToIndex.length initBs).foldl
        (batchStep emb docId chunksToIndex minBs) st0
      let store2 := if stF.ids.isEmpty then store
        else store.add stF.ids docId
      (⟨stF.ids.length, chunks.length, store2.count, stF.errors,
        stF.batches, stF.cur⟩, store2)

/-- The successive values of `self.current_batch_size` over the batch
loop, one entry per loop iteration boundary (an analysis companion of
`index_document_chunks`: the fold is replaced by a scan). -/
def batchSizeTrace (emb : Embedder) (docId : List Char)
    (chunksToIndex : List DbChunk) (minBs initBs : Nat) : List Nat :=
  ((pyRange chunksToIndex.length initBs).scanl
    (batchStep emb docId chunksToIndex minBs) ⟨initBs, [], 0, 0⟩).map
    (fun st => st.cur)

/-! ## `query.LRUCache`

`OrderedDict` is modelled as a list of key–value pairs in insertion
order (head = oldest); `move_to_end` removes the key's entry and
appends it, `popitem(last=False)` drops the head.  The cache is
generic in key and value types (the source uses string keys and
arbitrary values). -/

/-- `query.LRUCache`. -/
structure LRUCache (K V : Type) where
  entries : List (K × V)
  maxsize : Nat

/-- `LRUCache.get(key)`: on a hit, move the entry to the
most-recently-used end and return its value; on a miss return `None`.
Returns the value and the updated cache. -/
def LRUCache.get {K V : Type} [DecidableEq K] (c : LRUCache K V) (k : K) :
    Option V × LRUCache K V :=
  match c.entries.find? (fun e => e.1 = k) with
  | some e =>
    (some e.2, { c with entries := c.entries.filter (fun e => ¬e.1 = k) ++ [(k, e.2)] })
  | none => (none, c)

/-- `LRUCache.put(key, value)`: an existing key is moved to the end and
overwritten; a new key evicts the oldest entry first when the cache is
at (or above) capacity. -/
def LRUCache.put {K V : Type} [DecidableEq K] (c : LRUCache K V) (k : K)
    (v : V) : LRUCache K V :=
  if c.entries.any (fun e => e.1 = k) then
    { c with entries := c.entries.filter (fun e => ¬e.1 = k) ++ [(k, v)] }
  else if c.maxsize ≤ c.entries.length then
    { c with entries := c.entries.tail ++ [(k, v)] }
  else
    { c with entries := c.entries ++ [(k, v)] }

/-- A cache operation. -/
inductive LRUOp (K V : Type) where
  | get (k : K)
  | put (k : K) (v : V)

/-- Apply one operation to the cache (a `get`'s returned value is
discarded, only the state update is kept). -/
def lruApply {K V : Type} [DecidableEq K] (c : LRUCache K V) :
    LRUOp K V → LRUCache K V
  | .get k => (c.get k).2
  | .put k v => c.put k v

/-- Run a sequence of operations from the freshly constructed cache
`LRUCache(maxsize)`. -/
def runLRU {K V : Type} [DecidableEq K] (maxsize : Nat)
    (ops : List (LRUOp K V)) : LRUCache K V :=
  ops.foldl lruApply ⟨[], maxsize⟩

/-- Ghost companion of the cache: each entry carries the index of the
operation that last *used* it (a `get` hit, or a `put`).  Entries whose
ghost time is minimal are the least recently used. -/
def ghostStep {K V : Type} [DecidableEq K] (maxsize : Nat)
    (st : List (K × V × Nat)) (op : LRUOp K V) (t : Nat) :
    List (K × V × Nat) :=
  match op with
  | .get k =>
    match st.find? (fun e => e.1 = k) with
    | some e => st.filter (fun e => ¬e.1 = k) ++ [(k, e.2.1, t)]
    | none => st
  | .put k v =>
    if st.any (fun e => e.1 = k) then
      st.filter (fun e => ¬e.1 = k) ++ [(k, v, t)]
    else if maxsize ≤ st.length then
      st.tail ++ [(k, v, t)]
    else
      st ++ [(k, v, t)]

/-- Run the ghost cache, numbering operations from `t`. -/
def runGhost {K V : Type} [DecidableEq K] (maxsize : Nat) :
    List (K × V × Nat) → Nat → List (LRUOp K V) → List (K × V × Nat)
  | st, _, [] => st
  | st, t, op :: ops => runGhost maxsize (ghostStep maxsize st op t) (t + 1) ops

/-- Forget a ghost entry's timestamp. -/
def dropTime {K V : Type} (e : K × V × Nat) : K × V := (e.1, e.2.1)

/-- The invariant tying the cache to its ghost: same entries in the
same order, no duplicate keys, at most `maxsize` entries, ghost
timestamps strictly increasing along the list (head = least recently
used) and all below the next operation index. -/
def LRUInv {K V : Type} (maxsize : Nat) (c : LRUCache K V)
    (g : List (K × V × Nat)) (t : Nat) : Prop :=
  c.maxsize = maxsize ∧
  c.entries = g.map dropTime ∧
  (c.entries.map Prod.fst).Nodup ∧
  c.entries.length ≤ maxsize ∧
  List.Pairwise (fun a b => a.2.2 < b.2.2) g ∧
  (∀ e ∈ g, e.2.2 < t)

/-! ## `query.extract_top_sentences` and
`query.QueryRetriever.assemble_context`

Context assembly is modelled as a pure function of the query, the list
of retrieved chunks (what `retrieve_chunks` returned) and
`max_context_chars`; `top_k` only bounds how many chunks retrieval can
hand over, and the two LRU caches return previously assembled results
unchanged, so neither affects the shape of a freshly assembled
context. -/

/-- The sentence-accumulation pass of `extract_top_sentences`: build up
`current_sentence` character by character, emitting the stripped
sentence at each `.`/`!`/`?`; a non-empty stripped remainder is
appended at the end. `acc` holds the pending sentence reversed. -/
def splitSent : List Char → List Char → List (List Char)
  | acc, [] =>
    if (stripEnds acc.reverse).isEmpty then [] else [stripEnds acc.reverse]
  | acc, c :: cs =>
    if c == '.' || c == '!' || c == '?' then
      stripEnds (c :: acc).reverse :: splitSent [] cs
    else splitSent (c :: acc) cs

/-- The selection loop of `extract_top_sentences`: append sentences
(followed by one space) while the next one still fits in `maxChars`;
stop at the first that does not. -/
def takeSent (maxChars : Nat) : List Char → List (List Char) → List Char
  | result, [] => result
  | result, s :: ss =>
    if result.length + s.length + 1 ≤ maxChars then
      takeSent maxChars (result ++ s ++ [' ']) ss
    else result

/-- `query.extract_top_sentences(text, max_chars)`. -/
def extract_top_sentences (text : List Char) (maxChars : Nat) : List Char :=
  if text.length ≤ maxChars then text
  else
    let result := takeSent maxChars [] (splitSent [] text)
    if result.isEmpty then text.take maxChars else stripEnds result

/-- `text[:n].rsplit(' ', 1)[0]`: everything before the last space, or
the whole string when it has no space. -/
def beforeLastSpace (l : List Char) : List Char :=
  let r := l.reverse.dropWhile (fun c => ¬c = ' ')
  if r.isEmpty then l else (r.drop 1).reverse

/-- A chunk as `retrieve_chunks` returns it (the fields context
assembly reads; the float similarity only orders the chunks and is not
part of the assembled text). -/
structure RChunk where
  doc_id : List Char
  chunk_id_num : Nat
  page_number : Option Nat
  text : List Char
deriving Repr, DecidableEq

/-- A citation record (minus the float similarity). -/
structure Citation where
  doc_id : List Char
  chunk_id : Nat
  page : Option Nat
deriving Repr, DecidableEq

/-- The fixed context header. -/
def headerStr : List Char :=
  ("[SYSTEM CONTEXT RULES]\nUse only the information provided below.\n" ++
   "Cite evidence using [DOC:doc_id | CHUNK:chunk_id].\n\n[CONTEXT SOURCES]\n").data

/-- `f"--- SOURCE {idx+1} ---\n[DOC: {doc_id} | CHUNK: {chunk_id}{page}]\n\n"`. -/
def sourceHeader (idx : Nat) (c : RChunk) : List Char :=
  let pageStr := match c.page_number with
    | some p => (" | PAGE: ".data) ++ (Nat.repr p).data
    | none => []
  ("--- SOURCE ".data) ++ (Nat.repr (idx + 1)).data ++ (" ---\n[DOC: ".data) ++
    c.doc_id ++ (" | CHUNK: ".data) ++ (Nat.repr c.chunk_id_num).data ++
    pageStr ++ ("]\n\n".data)

/-- `f"\n[USER QUESTION]\n{query}\n"`. -/
def userQuestion (q : List Char) : List Char :=
  ("\n[USER QUESTION]\n".data) ++ q ++ "\n".data

/-- `QueryRetriever._format_empty_context(query)`. -/
def formatEmptyContext (q : List Char) : List Char :=
  headerStr ++ ("No relevant sources found.\n\n".data) ++
    ("[USER QUESTION]\n".data) ++ q ++ "\n".data

/-- The truncation step of `assemble_context` for a chunk text that
does not fit in the `available` characters: extractive sentence
selection, with the source's hard-truncation fallback (cut at the last
space before `available` and append `"..."`). -/
def truncateText (text : List Char) (avail : Nat) : List Char :=
  if avail < text.length then
    let tr := extract_top_sentences text avail
    if avail < tr.length then beforeLastSpace (text.take avail) ++ "...".data
    else tr
  else text

/-- The chunk loop of `assemble_context`: stop when no space is left
(`available ≤ 0`), truncate an oversized chunk text, append the block
and the citation, and stop once the running length reaches
`max_context_chars`. -/
def assembleLoop (maxChars : Nat) :
    Nat → List Char → List Citation → Nat → List RChunk →
    List Char × List Citation
  | _, acc, cits, _, [] => (acc, cits)
  | curLen, acc, cits, idx, c :: rest =>
    let sh := sourceHeader idx c
    let hlen := sh.length + 2
    if maxChars ≤ curLen + hlen then (acc, cits)
    else
      let avail := maxChars - (curLen + hlen)
      let text1 := truncateText c.text avail
      let block := sh ++ text1 ++ ('\n' :: ['\n'])
      let curLen2 := curLen + block.length
      let acc2 := acc ++ block
      let cits2 := cits ++ [⟨c.doc_id, c.chunk_id_num, c.page_number⟩]
      if maxChars ≤ curLen2 then (acc2, cits2)
      else assembleLoop maxChars curLen2 acc2 cits2 (idx + 1) rest

/-- `query.QueryRetriever.assemble_context(query, top_k,
max_context_chars)` as a function of the retrieved chunks. -/
def assemble_context (query : List Char) (chunks : List RChunk)
    (maxChars : Nat) : List Char × List Citation :=
  if chunks.isEmpty then (formatEmptyContext query, [])
  else
    let r := assembleLoop maxChars headerStr.length headerStr [] 0 chunks
    (r.1 ++ userQuestion query, r.2)

/-! ## `parsers.base.BaseParser.detect_file_type` -/

/-- `BaseParser.detect_file_type(filename)`:
`ext = filename.lower().split(".")[-1] if "." in filename else ""`,
then the if/elif chain over the known extensions; unknown extensions
raise `ValueError` (modelled as `Except.error ext`). -/
def detect_file_type (filename : List Char) : Except (List Char) (List Char) :=
  let ext :=
    if filename.any (fun c => c = '.') then
      (splitOnChar '.' (filename.map pyToLower)).getLastD []
    else []
  if ext = "pdf".data then .ok ("pdf".data)
  else if ext = "docx".data ∨ ext = "doc".data then .ok ("docx".data)
  else if ext = "txt".data ∨ ext = "text".data then .ok ("txt".data)
  else if ext = "html".data ∨ ext = "htm".data then .ok ("html".data)
  else .error ext

/-! ## Definitions taken from the specification's words

These definitions render the *claims'* wording (not the source), to be
compared with the source-derived definitions above. -/

/-- The file extensions the claim says ingestion accepts:
{pdf, docx, doc, txt, html, htm}. -/
def claimedExtensions : List (List Char) :=
  ["pdf".data, "docx".data, "doc".data, "txt".data, "html".data, "htm".data]

/-- The extension set the code actually accepts: the claimed set plus
`text` (the amended claim). -/
def acceptedExtensions : List (List Char) :=
  claimedExtensions ++ ["text".data]

/-- The extension of a filename as the claim reads it (and as the
source extracts it): the part after the last dot of the lowercased
filename, or `""` when there is no dot. -/
def pyExtension (filename : List Char) : List Char :=
  if filename.any (fun c => c = '.') then
    (splitOnChar '.' (filename.map pyToLower)).getLastD []
  else []

/-- The file type the amended claim assigns to each accepted extension:
pdf↦pdf, docx/doc↦docx, txt/text↦txt, html/htm↦html. -/
def specFileTypeOf (ext : List Char) : List Char :=
  if ext = "pdf".data then "pdf".data
  else if ext = "docx".data ∨ ext = "doc".data then "docx".data
  else if ext = "txt".data ∨ ext = "text".data then "txt".data
  else "html".data

/-- The boilerplate test as the amended claim words it: the trimmed,
lowercased form is non-empty, shorter than 100 characters, and occurs
at least three times among the text's lines. -/
def specIsBoilerplate (lines : List (List Char)) (form : List Char) : Bool :=
  !form.isEmpty && form.length < 100 &&
    3 ≤ (lines.filter (fun l => normLine l = form)).length

/-- The removal pass as the amended claim words it: walk the lines in
order (with the already-walked prefix `pre`); a boilerplate line is
kept exactly when no earlier line has the same form, every other line
is kept. -/
def specRemoveLoop (lines : List (List Char)) :
    List (List Char) → List (List Char) → List (List Char)
  | _, [] => []
  | pre, l :: ls =>
    if specIsBoilerplate lines (normLine l) &&
        !(pre.all (fun l2 => !(normLine l2 = normLine l))) then
      specRemoveLoop lines (pre ++ [l]) ls
    else l :: specRemoveLoop lines (pre ++ [l]) ls

/-- The amended claim's rendering of repeated header/footer removal:
texts with fewer than six lines are returned unchanged; otherwise the
first occurrence of each boilerplate line is retained and the
subsequent ones are removed. -/
def specRemoveRepeated (text : List Char) : List Char :=
  let lines := splitLines text
  if lines.length < 6 then text
  else joinLines (specRemoveLoop lines [] lines)

/-! ## Concrete instances used by counterexamples and witnesses -/

/-- 12 letters followed by 10 spaces: a text on which the chunker's
whitespace-skip iterations move `start` backwards. -/
def dipText : List Char := "abcdefghijkl".data ++ List.replicate 10 ' '

/-- A text whose first chunk is shorter than `min_chunk_size` after
stripping. -/
def shortChunkText : List Char := "ab".data ++ List.replicate 10 ' ' ++ "cd".data

/-- A text with a sentence boundary one past `chunk_size`, producing a
chunk one character longer than `max_chunk_size` when
`chunk_size = max_chunk_size`. -/
def longChunkText : List Char := "abcdefgh.".data ++ " zz".data

/-- The chunks produced on `dipText` with `chunk_size 8`, `overlap 4`,
`min_chunk_size 2`, `max_chunk_size 8`. -/
def dipChunks : List TChunk :=
  [⟨"abcdefgh".data, 0, 8, 0, none⟩, ⟨"efghijkl".data, 4, 12, 1, none⟩,
   ⟨"ijkl".data, 8, 16, 2, none⟩, ⟨"kl".data, 10, 18, 3, none⟩]

/-- The chunks produced on `shortChunkText` with `chunk_size 8`,
`overlap 2`, `min_chunk_size 4`, `max_chunk_size 8`. -/
def shortChunks : List TChunk :=
  [⟨"ab".data, 0, 4, 0, none⟩, ⟨"cd".data, 6, 14, 1, none⟩]

/-- The chunks produced on `longChunkText` with `chunk_size 8`,
`overlap 4`, `min_chunk_size 2`, `max_chunk_size 8`. -/
def longChunks : List TChunk :=
  [⟨"abcdefgh.".data, 0, 9, 0, none⟩, ⟨"fgh. zz".data, 5, 12, 1, none⟩]

/-- A well-behaved chunker input (overlap below `min_chunk_size`). -/
def witnessText : List Char := "alpha beta. gamma delta".data

/-- The chunks produced on `witnessText` with `chunk_size 10`,
`overlap 3`, `min_chunk_size 4`, `max_chunk_size 10`. -/
def witnessChunks : List TChunk :=
  [⟨"alpha beta.".data, 0, 11, 0, none⟩,
   ⟨"ta. gamma".data, 8, 18, 1, none⟩,
   ⟨"ma delta".data, 15, 23, 2, none⟩]

/-- An embedder that reports OOM exactly on calls with batch size
greater than three (scenario S4 of the spec). -/
def oomEmbedder : Embedder := fun _texts bs => if 3 < bs then .oom else .ok

/-- The example document id. -/
def exampleDoc : List Char := "doc".data

/-- Ten chunk rows, chunk ids 0–9. -/
def exampleChunks : List DbChunk :=
  (List.range 10).map (fun i => ⟨i, ['c']⟩)

/-- A store already holding all ten composite ids of `exampleDoc`. -/
def fullStore : VStore :=
  ⟨(List.range 10).map (fun i => (compositeId exampleDoc i, exampleDoc))⟩

/-- A retrieved chunk used by concrete context-assembly runs. -/
def exampleRChunk : RChunk :=
  ⟨"d1".data, 0, none,
   "Hello world. This is a test sentence. And more text here.".data⟩

/-- A 260-character query. -/
def longQuery : List Char := List.replicate 260 'q'

/-- Decidable equality for `Except` (needed to state and decide
concrete runs of `detect_file_type`). -/
instance {ε α : Type} [DecidableEq ε] [DecidableEq α] :
    DecidableEq (Except ε α) := fun x y =>
  match x, y with
  | .ok a, .ok b =>
    if h : a = b then isTrue (by rw [h]) else isFalse (by simp [h])
  | .error a, .error b =>
    if h : a = b then isTrue (by rw [h]) else isFalse (by simp [h])
  | .ok _, .error _ => isFalse (by simp)
  | .error _, .ok _ => isFalse (by simp)

/-! # Theorems -/

/-! ## File-type detection (C8) -/

/-- The two if/elif chains — the source's and the amended claim's —
agree on every extension. -/
theorem detectChain_eq (ext : List Char) :
    (if ext = "pdf".data then (Except.ok ("pdf".data) : Except (List Char) (List Char))
     else if ext = "docx".data ∨ ext = "doc".data then .ok ("docx".data)
     else if ext = "txt".data ∨ ext = "text".data then .ok ("txt".data)
     else if ext = "html".data ∨ ext = "htm".data then .ok ("html".data)
     else .error ext) =
    (if ext ∈ acceptedExtensions then Except.ok (specFileTypeOf ext)
     else Except.error ext) := by
  by_cases hm : ext ∈ acceptedExtensions
  · simp only [acceptedExtensions, claimedExtensions, List.mem_append,
      List.mem_cons, List.mem_singleton, List.not_mem_nil, or_false] at hm
    rcases hm with (rfl | rfl | rfl | rfl | rfl | rfl) | rfl <;> decide
  · have hm2 := hm
    simp only [acceptedExtensions, claimedExtensions, List.mem_append,
      List.mem_cons, List.mem_singleton, List.not_mem_nil, or_false,
      not_or] at hm2
    obtain ⟨⟨h1, h2, h3, h4, h5, h6⟩, h7⟩ := hm2
    simp [h1, h2, h3, h4, h5, h6, h7, hm]

/-- Claim C8, counterexample: the filename `a.text` has extension
`text`, outside the claimed set {pdf, docx, doc, txt, html, htm}, yet
`detect_file_type` accepts it (as file type `txt`), so ingestion does
not reject it. -/
theorem detect_accepts_text_extension :
    detect_file_type ("a.text".data) = Except.ok ("txt".data) ∧
    ¬(("text".data) ∈ claimedExtensions) ∧
    pyExtension ("a.text".data) = "text".data := by
  decide

/-- Claim C8, amended: `detect_file_type` accepts exactly the
extensions {pdf, docx, doc, txt, text, html, htm} (after lowercasing,
taking the part after the last dot, the empty extension for dotless
names), and maps each accepted extension to its file type
(pdf↦pdf, docx/doc↦docx, txt/text↦txt, html/htm↦html). -/
theorem detect_file_type_exact (filename : List Char) :
    detect_file_type filename =
      (if pyExtension filename ∈ acceptedExtensions then
        Except.ok (specFileTypeOf (pyExtension filename))
      else Except.error (pyExtension filename)) := by
  simp only [detect_file_type, pyExtension]
  exact detectChain_eq _

/-! ## Indexing: the OOM scenario (C2) -/

/-- Claim C2: in scenario S4 (ten chunks, initial batch size 6, minimum
2, an embedder that reports OOM exactly for batch sizes above 3), the
batch size is reduced 6 → 3 and the first batch retried, but the batch
loop — whose `range` step was fixed at 6 while the slices use the
reduced size 3 — visits offsets 0 and 6 only and slices 6 + 3 = 9
chunks: chunk 9 is never embedded and `chunks_indexed` is 9, not 10. -/
theorem indexing_oom_drops_final_chunk :
    (index_document_chunks oomEmbedder ⟨[]⟩ exampleDoc exampleChunks true 6 2).1.chunks_indexed = 9 ∧
    (index_document_chunks oomEmbedder ⟨[]⟩ exampleDoc exampleChunks true 6 2).1.total_chunks = 10 ∧
    batchSizeTrace oomEmbedder exampleDoc exampleChunks 2 6 = [6, 3, 3] ∧
    ¬(compositeId exampleDoc 9 ∈
      ((index_document_chunks oomEmbedder ⟨[]⟩ exampleDoc exampleChunks true 6 2).2).idsFor exampleDoc) ∧
    compositeId exampleDoc 8 ∈
      ((index_document_chunks oomEmbedder ⟨[]⟩ exampleDoc exampleChunks true 6 2).2).idsFor exampleDoc := by
  decide

/-! ## Indexing: dedup on re-index (C7) -/

/-- Claim C7: when every chunk's composite id is already present in the
vector store under this document, `index_document_chunks` with
`skip_existing` reports `chunks_indexed = 0` and returns the store
untouched (in particular its count is unchanged). -/
theorem reindex_skip_existing_noop (emb : Embedder) (store : VStore)
    (docId : List Char) (chunks : List DbChunk) (initBs minBs : Nat)
    (h : ∀ c ∈ chunks, compositeId docId c.chunk_id ∈ store.idsFor docId) :
    (index_document_chunks emb store docId chunks true initBs minBs).1.chunks_indexed = 0 ∧
    (index_document_chunks emb store docId chunks true initBs minBs).2 = store ∧
    (index_document_chunks emb store docId chunks true initBs minBs).2.count = store.count := by
  have hfilter :
      chunks.filter
        (fun c => !((store.idsFor docId).contains (compositeId docId c.chunk_id))) = [] := by
    rw [List.filter_eq_nil_iff]
    intro c hc
    have hct : (store.idsFor docId).contains (compositeId docId c.chunk_id) = true := by
      simpa [List.contains] using h c hc
    simp [hct]
    exact h c hc
  by_cases hc : chunks.isEmpty
  · unfold index_document_chunks
    simp [hc]
  · unfold index_document_chunks
    simp only [hc, Bool.false_eq_true, if_false, if_true, hfilter,
      List.isEmpty_nil]
    simp

/-- Witness for C7 at a concrete store holding all ten ids. -/
theorem reindex_skip_existing_noop_witness :
    (index_document_chunks oomEmbedder fullStore exampleDoc exampleChunks true 6 2).1.chunks_indexed = 0 ∧
    (index_document_chunks oomEmbedder fullStore exampleDoc exampleChunks true 6 2).2 = fullStore ∧
    (index_document_chunks oomEmbedder fullStore exampleDoc exampleChunks true 6 2).2.count = fullStore.count :=
  reindex_skip_existing_noop oomEmbedder fullStore exampleDoc exampleChunks 6 2 (by decide)

/-! ## Indexing: batch size evolution (C9) -/

/-- `Chain'` through `map g ∘ scanl f`: a per-step relation on the
projection lifts to the whole scan. -/
theorem chain'_map_scanl {α β γ : Type} (R : γ → γ → Prop) (g : β → γ)
    (f : β → α → β) (hstep : ∀ s a, R (g s) (g (f s a))) :
    ∀ (l : List α) (s : β), List.Chain' R ((l.scanl f s).map g)
  | [], s => by simp
  | a :: l, s => by
    simp only [List.scanl_cons, List.singleton_append, List.map_cons]
    have htail := chain'_map_scanl R g f hstep l (f s a)
    cases l with
    | nil => simpa using hstep s a
    | cons b t =>
      simp only [List.scanl_cons, List.singleton_append, List.map_cons] at htail ⊢
      exact (List.chain'_cons).mpr ⟨hstep s a, htail⟩

/-- One batch iteration either keeps `current_batch_size` or — only
when it exceeds `min_batch_size` — halves it, floored at
`min_batch_size`. -/
theorem batchStep_cur (emb : Embedder) (docId : List Char)
    (cti : List DbChunk) (minBs : Nat) (st : IndexState) (b : Nat) :
    (batchStep emb docId cti minBs st b).cur = st.cur ∨
      (minBs < st.cur ∧
        (batchStep emb docId cti minBs st b).cur = max minBs (st.cur / 2)) := by
  dsimp only [batchStep]
  cases emb (((cti.drop b).take st.cur).map (fun c => c.text)) st.cur with
  | ok => left; rfl
  | err => left; rfl
  | oom =>
    by_cases hlt : minBs < st.cur
    · simp only [if_pos hlt]
      cases emb (((cti.drop b).take st.cur).map (fun c => c.text))
          (max minBs (st.cur / 2)) with
      | ok => right; exact ⟨hlt, rfl⟩
      | err => right; exact ⟨hlt, rfl⟩
      | oom => right; exact ⟨hlt, rfl⟩
    · simp only [if_neg hlt]
      left
      first
      | rfl
      | trivial

/-- Claim C9: over one call's batch loop, the sequence of
`current_batch_size` values starts at `initial_batch_size`, every step
is either unchanged or (when above `min_batch_size`) a halving floored
at `min_batch_size`, and the sequence never increases. -/
theorem batch_size_never_increases (emb : Embedder) (docId : List Char)
    (chunks : List DbChunk) (minBs initBs : Nat) :
    (batchSizeTrace emb docId chunks minBs initBs).head? = some initBs ∧
    List.Chain' (fun a b => b = a ∨ (minBs < a ∧ b = max minBs (a / 2)))
      (batchSizeTrace emb docId chunks minBs initBs) ∧
    List.Chain' (fun a b => b ≤ a) (batchSizeTrace emb docId chunks minBs initBs) := by
  refine ⟨?_, ?_, ?_⟩
  · unfold batchSizeTrace
    cases pyRange chunks.length initBs <;> rfl
  · exact chain'_map_scanl _ _ _
      (fun s a => batchStep_cur emb docId chunks minBs s a) _ _
  · refine chain'_map_scanl _ _ _ (fun s a => ?_) _ _
    rcases batchStep_cur emb docId chunks minBs s a with h | ⟨hlt, h⟩
    · exact h.le
    · rw [h]
      exact max_le hlt.le (Nat.le_trans (Nat.div_le_self _ _) (le_refl _))

/-! ## Context assembly (C1) -/

/-- `rstrip` never lengthens a string. -/
theorem rstripLine_length_le (l : List Char) :
    (rstripLine l).length ≤ l.length := by
  unfold rstripLine
  rw [List.length_reverse]
  calc (l.reverse.dropWhile pyIsSpace).length
      ≤ l.reverse.length := (List.dropWhile_sublist _).length_le
    _ = l.length := List.length_reverse l

/-- `strip` never lengthens a string. -/
theorem stripEnds_length_le (l : List Char) :
    (stripEnds l).length ≤ l.length :=
  le_trans (rstripLine_length_le _) (List.dropWhile_sublist _).length_le

/-- The selection loop of `extract_top_sentences` keeps the
accumulated result within `maxChars`. -/
theorem takeSent_length (maxChars : Nat) :
    ∀ (ss : List (List Char)) (result : List Char),
      result.length ≤ maxChars →
      (takeSent maxChars result ss).length ≤ maxChars
  | [], result, h => by simpa [takeSent] using h
  | s :: ss, result, h => by
    rw [takeSent]
    by_cases hf : result.length + s.length + 1 ≤ maxChars
    · rw [if_pos hf]
      exact takeSent_length maxChars ss _ (by simpa using hf)
    · rw [if_neg hf]
      exact h

/-- `extract_top_sentences(text, m)` returns at most `m` characters
whenever the input exceeds `m` — and at most `max m len(text)` always
(the hard-truncation fallback of `assemble_context` is in fact
unreachable). -/
theorem extract_top_sentences_length_le (text : List Char) (m : Nat)
    (h : m < text.length) :
    (extract_top_sentences text m).length ≤ m := by
  unfold extract_top_sentences
  rw [if_neg (by omega)]
  by_cases he : (takeSent m [] (splitSent [] text)).isEmpty
  · rw [if_pos he]
    simpa using Nat.min_le_left m text.length
  · rw [if_neg he]
    exact le_trans (stripEnds_length_le _)
      (takeSent_length m (splitSent [] text) [] (by simp))

/-- The truncation step fits in the available space. -/
theorem truncateText_length_le (text : List Char) (avail : Nat)
    (h : text.length ≤ avail ∨ avail < text.length) :
    (truncateText text avail).length ≤ avail := by
  unfold truncateText
  by_cases ht : avail < text.length
  · rw [if_pos ht]
    have hex := extract_top_sentences_length_le text avail ht
    rw [if_neg (by omega)]
    exact hex
  · rw [if_neg ht]
    omega

/-- The chunk loop of `assemble_context` never pushes the accumulated
context beyond `max_context_chars` (beyond where it already stood). -/
theorem assembleLoop_length_le (maxChars : Nat) :
    ∀ (rest : List RChunk) (curLen : Nat) (acc : List Char)
      (cits : List Citation) (idx : Nat),
      acc.length = curLen →
      ((assembleLoop maxChars curLen acc cits idx rest).1).length ≤
        max curLen maxChars
  | [], curLen, acc, cits, idx, h => by
    rw [assembleLoop]
    exact h ▸ le_max_left _ _
  | c :: rest, curLen, acc, cits, idx, h => by
    rw [assembleLoop]
    by_cases hstop : maxChars ≤ curLen + ((sourceHeader idx c).length + 2)
    · rw [if_pos hstop]
      exact h ▸ le_max_left _ _
    · rw [if_neg hstop]
      have havail :
          (truncateText c.text
            (maxChars - (curLen + ((sourceHeader idx c).length + 2)))).length ≤
            maxChars - (curLen + ((sourceHeader idx c).length + 2)) :=
        truncateText_length_le _ _ (by omega)
      set text1 := truncateText c.text
        (maxChars - (curLen + ((sourceHeader idx c).length + 2))) with htext1
      have hblock :
          (sourceHeader idx c ++ text1 ++ ('\n' :: ['\n'])).length =
            (sourceHeader idx c).length + text1.length + 2 := by
        simp [List.length_append]
        omega
      have hcur2 :
          curLen + (sourceHeader idx c ++ text1 ++ ('\n' :: ['\n'])).length ≤ maxChars := by
        rw [hblock]
        omega
      by_cases hdone :
          maxChars ≤ curLen + (sourceHeader idx c ++ text1 ++ ('\n' :: ['\n'])).length
      · rw [if_pos hdone]
        refine le_trans ?_ (le_max_right curLen maxChars)
        rw [List.length_append, h]
        exact hcur2
      · rw [if_neg hdone]
        have hrec := assembleLoop_length_le maxChars rest
          (curLen + (sourceHeader idx c ++ text1 ++ ('\n' :: ['\n'])).length)
          (acc ++ (sourceHeader idx c ++ text1 ++ ('\n' :: ['\n'])))
          (cits ++ [⟨c.doc_id, c.chunk_id_num, c.page_number⟩]) (idx + 1)
          (by simp [h, List.length_append])
        refine le_trans hrec (max_le ?_ (le_max_right _ _))
        exact le_trans hcur2 (le_max_right _ _)

/-- Claim C1, amended: the assembled context is bounded by
`max_context_chars` plus a fixed overhead of at most 79 characters for
the header/footer skeleton *plus the length of the query itself*,
because the `[USER QUESTION]` footer embeds the query verbatim.  For
every query, every retrieved chunk list and every
`max_context_chars ≥ 100`:
`len(context) ≤ max_context_chars + 79 + len(query)`. -/
theorem assemble_context_length_bound (query : List Char)
    (chunks : List RChunk) (maxChars : Nat) (h : 100 ≤ maxChars) :
    ((assemble_context query chunks maxChars).1).length ≤
      maxChars + 79 + query.length := by
  unfold assemble_context
  by_cases hc : chunks.isEmpty
  · rw [if_pos hc]
    have h3 : headerStr.length = 134 := by rfl
    have hlen : (formatEmptyContext query).length = 179 + query.length := by
      unfold formatEmptyContext
      have e1 : ("No relevant sources found.\n\n".data).length = 28 := by rfl
      have e2 : ("[USER QUESTION]\n".data).length = 16 := by rfl
      have e3 : ("\n".data).length = 1 := by rfl
      simp only [List.length_append, h3, e1, e2, e3]
      omega
    simp only [hlen]
    omega
  · rw [if_neg hc]
    have h1 := assembleLoop_length_le maxChars chunks headerStr.length headerStr [] 0 rfl
    have h2 : (userQuestion query).length = 18 + query.length := by
      unfold userQuestion
      have e1 : ("\n[USER QUESTION]\n".data).length = 17 := by rfl
      have e2 : ("\n".data).length = 1 := by rfl
      simp only [List.length_append, e1, e2]
      omega
    have h3 : headerStr.length = 134 := by rfl
    have h4 : max headerStr.length maxChars ≤ maxChars + 34 :=
      max_le (by omega) (by omega)
    simp only [List.length_append, h2]
    omega

set_option maxRecDepth 8000 in
/-- Claim C1, counterexample: with `max_context_chars = 100` (the
smallest allowed), one retrieved chunk and a 260-character query, the
context is 412 characters long, exceeding
`max_context_chars + 300 = 400`: no query-independent
`fixed_overhead ≤ 300` bounds the context. -/
theorem assemble_context_exceeds_budget :
    ((assemble_context longQuery [exampleRChunk] 100).1).length = 412 ∧
    ¬(412 ≤ 100 + 300) := by
  constructor
  · rfl
  · decide

/-- Witness for C1 at a one-character query. -/
theorem assemble_context_length_bound_witness :
    ((assemble_context ("q".data) [exampleRChunk] 100).1).length ≤
      100 + 79 + ("q".data).length :=
  assemble_context_length_bound ("q".data) [exampleRChunk] 100 (by decide)

/-! ## Chunking (C5, C6) -/

/-- A successful backward scan returns at most `i + 1`. -/
theorem downScanAux_le (check : Nat → Bool) :
    ∀ (k i r : Nat), downScanAux check i k = some r → r ≤ i + 1
  | 0, i, r, h => by
    rw [downScanAux] at h
    by_cases hc : check i = true
    · rw [if_pos hc] at h
      injection h with h
      omega
    · rw [if_neg hc] at h
      cases h
  | k + 1, i, r, h => by
    rw [downScanAux] at h
    by_cases hc : check i = true
    · rw [if_pos hc] at h
      injection h with h
      omega
    · rw [if_neg hc] at h
      have hrec := downScanAux_le check k (i - 1) r h
      omega

/-- A successful backward scan from `i` returns at most `i + 1`. -/
theorem downScan_le (check : Nat → Bool) (i lo r : Nat)
    (h : downScan check i lo = some r) : r ≤ i + 1 :=
  downScanAux_le check (i - lo) i r h

/-- The break point never exceeds `position + 1`. -/
theorem find_break_point_le (text : List Char) (position lookback : Nat) :
    find_break_point text position lookback ≤ position + 1 := by
  simp only [find_break_point]
  cases h1 : downScan (sentCheck text) position (position - lookback) with
  | some r => exact downScan_le _ _ _ _ h1
  | none =>
    cases h2 : downScan (paraCheck text) position (position - lookback) with
    | some r => exact downScan_le _ _ _ _ h2
    | none =>
      cases h3 : downScan (wordCheck text) position (position - lookback) with
      | some r => exact downScan_le _ _ _ _ h3
      | none => simp

/-- The pre-extension end stays within `start + chunk_size + 1`. -/
theorem chunkEnd_le (text : List Char) (cs mincs start : Nat) :
    chunkEnd text cs mincs start ≤ start + cs + 1 := by
  unfold chunkEnd
  have hmin : min (start + cs) text.length ≤ start + cs := min_le_left _ _
  by_cases h0 : min (start + cs) text.length < text.length
  · rw [if_pos h0]
    by_cases hbp : start + mincs <
        find_break_point text (min (start + cs) text.length) (cs / 4)
    · rw [if_pos hbp]
      have hle := find_break_point_le text (min (start + cs) text.length) (cs / 4)
      omega
    · rw [if_neg hbp]
      omega
  · rw [if_neg h0]
    omega

/-- The pre-extension end lies at or after `start`. -/
theorem chunkEnd_ge (text : List Char) (cs mincs start : Nat)
    (hs : start < text.length) :
    start ≤ chunkEnd text cs mincs start := by
  unfold chunkEnd
  have hmin : start ≤ min (start + cs) text.length := by omega
  by_cases h0 : min (start + cs) text.length < text.length
  · rw [if_pos h0]
    by_cases hbp : start + mincs <
        find_break_point text (min (start + cs) text.length) (cs / 4)
    · rw [if_pos hbp]
      omega
    · rw [if_neg hbp]
      omega
  · rw [if_neg h0]
    omega

/-- The final end stays within `start + chunk_size + 1` (for
`min_chunk_size ≤ chunk_size`). -/
theorem chunkEnd2_le (text : List Char) (cs mincs start : Nat)
    (hcs : mincs ≤ cs) :
    chunkEnd2 text cs mincs start ≤ start + cs + 1 := by
  unfold chunkEnd2
  have h1 := chunkEnd_le text cs mincs start
  by_cases hext : (stripEnds (slice text start (chunkEnd text cs mincs start))).length < mincs ∧
      chunkEnd text cs mincs start < text.length
  · rw [if_pos hext]
    omega
  · rw [if_neg hext]
    exact h1

/-- The final end lies at or after `start`. -/
theorem chunkEnd2_ge (text : List Char) (cs mincs start : Nat)
    (hs : start < text.length) :
    start ≤ chunkEnd2 text cs mincs start := by
  unfold chunkEnd2
  have h1 := chunkEnd_ge text cs mincs start hs
  by_cases hext : (stripEnds (slice text start (chunkEnd text cs mincs start))).length < mincs ∧
      chunkEnd text cs mincs start < text.length
  · rw [if_pos hext]
    omega
  · rw [if_neg hext]
    exact h1

/-- The chunk text is at most as long as the chunk's span. -/
theorem chunkContent_length_le (text : List Char) (cs mincs start : Nat) :
    (chunkContent text cs mincs start).length ≤
      chunkEnd2 text cs mincs start - start := by
  unfold chunkContent slice
  refine le_trans (stripEnds_length_le _) ?_
  rw [List.length_take]
  exact min_le_left _ _

/-- A chunk whose final end is strictly inside the text spans at least
`min_chunk_size` characters. -/
theorem chunkEnd2_min_span (text : List Char) (cs mincs start : Nat)
    (hcs : mincs ≤ cs) (hs : start < text.length)
    (h2N : chunkEnd2 text cs mincs start < text.length) :
    mincs ≤ chunkEnd2 text cs mincs start - start := by
  revert h2N
  unfold chunkEnd2
  by_cases hext : (stripEnds (slice text start (chunkEnd text cs mincs start))).length < mincs ∧
      chunkEnd text cs mincs start < text.length
  · rw [if_pos hext]
    intro h2N
    omega
  · rw [if_neg hext]
    intro h2N
    push_neg at hext
    have hlen : mincs ≤
        (stripEnds (slice text start (chunkEnd text cs mincs start))).length := by
      by_contra hco
      push_neg at hco
      have := hext hco
      omega
    have hle : (stripEnds (slice text start (chunkEnd text cs mincs start))).length ≤
        chunkEnd text cs mincs start - start := by
      unfold slice
      refine le_trans (stripEnds_length_le _) ?_
      rw [List.length_take]
      exact min_le_left _ _
    omega

/-- An empty span yields an empty chunk text. -/
theorem chunkContent_ne (text : List Char) (cs mincs start : Nat)
    (h : ¬(chunkContent text cs mincs start).isEmpty = true) :
    start < chunkEnd2 text cs mincs start := by
  by_contra hle
  push_neg at hle
  apply h
  unfold chunkContent slice
  have hz : chunkEnd2 text cs mincs start - start = 0 := by omega
  rw [hz]
  rfl

/-- Invariant A: every chunk the loop emits has
`start_char < end_char`. -/
theorem chunkLoop_start_lt (text : List Char) (cs ov mincs : Nat) :
    ∀ (fuel start cid : Nat) (acc res : List TChunk),
      chunkLoop text cs ov mincs fuel start cid acc = some res →
      (∀ c ∈ acc, c.start_char < c.end_char) →
      ∀ c ∈ res, c.start_char < c.end_char := by
  intro fuel
  induction fuel with
  | zero =>
    intro start cid acc res heq hacc
    rw [chunkLoop] at heq
    cases heq
  | succ fuel ih =>
    intro start cid acc res heq hacc
    rw [chunkLoop] at heq
    by_cases hs : start < text.length
    · rw [if_pos hs] at heq
      by_cases hemp : (chunkContent text cs mincs start).isEmpty = true
      · simp only [hemp, if_true] at heq
        by_cases hN : text.length ≤ chunkEnd2 text cs mincs start
        · rw [if_pos hN] at heq
          injection heq with heq
          exact heq ▸ hacc
        · rw [if_neg hN] at heq
          exact ih _ _ _ _ heq hacc
      · simp only [hemp, Bool.false_eq_true, if_false] at heq
        have hacc2 : ∀ c ∈ acc ++
            [⟨chunkContent text cs mincs start, start,
              chunkEnd2 text cs mincs start, cid, none⟩],
            c.start_char < c.end_char := by
          intro c hc
          rcases List.mem_append.mp hc with hc | hc
          · exact hacc c hc
          · rcases List.mem_singleton.mp hc with rfl
            exact chunkContent_ne text cs mincs start hemp
        by_cases hN : text.length ≤ chunkEnd2 text cs mincs start
        · rw [if_pos hN] at heq
          injection heq with heq
          exact heq ▸ hacc2
        · rw [if_neg hN] at heq
          exact ih _ _ _ _ heq hacc2
    · rw [if_neg hs] at heq
      injection heq with heq
      exact heq ▸ hacc

/-- A skipped iteration (empty chunk text) that continues the loop
advances `end` to at least `start + overlap` when
`overlap ≤ min_chunk_size`. -/
theorem chunkEnd2_skip_ge (text : List Char) (cs mincs start ov : Nat)
    (hov : ov ≤ mincs) (hs : start < text.length)
    (hemp : (chunkContent text cs mincs start).isEmpty = true)
    (hN : chunkEnd2 text cs mincs start < text.length) :
    start + ov ≤ chunkEnd2 text cs mincs start := by
  revert hemp hN
  unfold chunkContent chunkEnd2
  by_cases hext : (stripEnds (slice text start (chunkEnd text cs mincs start))).length < mincs ∧
      chunkEnd text cs mincs start < text.length
  · rw [if_pos hext]
    intro hemp hN
    omega
  · rw [if_neg hext]
    intro hemp hN
    push_neg at hext
    have hz : (stripEnds (slice text start (chunkEnd text cs mincs start))).length = 0 := by
      rw [List.isEmpty_iff] at hemp
      rw [hemp]
      rfl
    have hm0 : mincs = 0 := by
      by_contra hm
      have := hext (by omega)
      omega
    have := chunkEnd_ge text cs mincs start hs
    omega

/-- Invariant B: size bounds — for every emitted chunk
`len(text) ≤ end − start ≤ chunk_size + 1`, and every chunk except
possibly the last spans at least `min_chunk_size`. -/
theorem chunkLoop_size_bounds (text : List Char) (cs ov mincs : Nat)
    (hcs : mincs ≤ cs) :
    ∀ (fuel start cid : Nat) (acc res : List TChunk),
      chunkLoop text cs ov mincs fuel start cid acc = some res →
      (∀ c ∈ acc, c.text.length ≤ c.end_char - c.start_char ∧
                  c.end_char - c.start_char ≤ cs + 1) →
      (∀ c ∈ acc, mincs ≤ c.end_char - c.start_char) →
      (∀ c ∈ res, c.text.length ≤ c.end_char - c.start_char ∧
                  c.end_char - c.start_char ≤ cs + 1) ∧
      (∀ c ∈ res.dropLast, mincs ≤ c.end_char - c.start_char) := by
  intro fuel
  induction fuel with
  | zero =>
    intro start cid acc res heq hacc hmin
    rw [chunkLoop] at heq
    cases heq
  | succ fuel ih =>
    intro start cid acc res heq hacc hmin
    rw [chunkLoop] at heq
    by_cases hs : start < text.length
    · rw [if_pos hs] at heq
      by_cases hemp : (chunkContent text cs mincs start).isEmpty = true
      · simp only [hemp, if_true] at heq
        by_cases hN : text.length ≤ chunkEnd2 text cs mincs start
        · rw [if_pos hN] at heq
          injection heq with heq
          subst heq
          exact ⟨hacc, fun c hc => hmin c ((List.dropLast_sublist _).subset hc)⟩
        · rw [if_neg hN] at heq
          exact ih _ _ _ _ heq hacc hmin
      · simp only [hemp, Bool.false_eq_true, if_false] at heq
        have hnew1 : (chunkContent text cs mincs start).length ≤
            chunkEnd2 text cs mincs start - start :=
          chunkContent_length_le text cs mincs start
        have hnew2 : chunkEnd2 text cs mincs start - start ≤ cs + 1 := by
          have := chunkEnd2_le text cs mincs start hcs
          omega
        have hacc2 : ∀ c ∈ acc ++
            [⟨chunkContent text cs mincs start, start,
              chunkEnd2 text cs mincs start, cid, none⟩],
            c.text.length ≤ c.end_char - c.start_char ∧
              c.end_char - c.start_char ≤ cs + 1 := by
          intro c hc
          rcases List.mem_append.mp hc with hc | hc
          · exact hacc c hc
          · rcases List.mem_singleton.mp hc with rfl
            exact ⟨hnew1, hnew2⟩
        by_cases hN : text.length ≤ chunkEnd2 text cs mincs start
        · rw [if_pos hN] at heq
          injection heq with heq
          subst heq
          refine ⟨hacc2, ?_⟩
          intro c hc
          rw [List.dropLast_concat] at hc
          exact hmin c hc
        · rw [if_neg hN] at heq
          refine ih _ _ _ _ heq hacc2 ?_
          intro c hc
          rcases List.mem_append.mp hc with hc | hc
          · exact hmin c hc
          · rcases List.mem_singleton.mp hc with rfl
            exact chunkEnd2_min_span text cs mincs start hcs hs (by omega)
    · rw [if_neg hs] at heq
      injection heq with heq
      subst heq
      exact ⟨hacc, fun c hc => hmin c ((List.dropLast_sublist _).subset hc)⟩

/-- Invariant C: when `overlap ≤ min_chunk_size`, consecutive emitted
chunks satisfy `previous.end_char ≤ next.start_char + overlap`. -/
theorem chunkLoop_chain (text : List Char) (cs ov mincs : Nat)
    (hov : ov ≤ mincs) :
    ∀ (fuel start cid : Nat) (acc res : List TChunk),
      chunkLoop text cs ov mincs fuel start cid acc = some res →
      List.Chain' (fun a b => a.end_char ≤ b.start_char + ov) acc →
      (∀ c, acc.getLast? = some c → c.end_char ≤ start + ov) →
      List.Chain' (fun a b => a.end_char ≤ b.start_char + ov) res := by
  intro fuel
  induction fuel with
  | zero =>
    intro start cid acc res heq hchain hlast
    rw [chunkLoop] at heq
    cases heq
  | succ fuel ih =>
    intro start cid acc res heq hchain hlast
    rw [chunkLoop] at heq
    by_cases hs : start < text.length
    · rw [if_pos hs] at heq
      by_cases hemp : (chunkContent text cs mincs start).isEmpty = true
      · simp only [hemp, if_true] at heq
        by_cases hN : text.length ≤ chunkEnd2 text cs mincs start
        · rw [if_pos hN] at heq
          injection heq with heq
          exact heq ▸ hchain
        · rw [if_neg hN] at heq
          refine ih _ _ _ _ heq hchain ?_
          intro c hc
          have h1 := hlast c hc
          have h2 := chunkEnd2_skip_ge text cs mincs start ov hov hs hemp (by omega)
          omega
      · simp only [hemp, Bool.false_eq_true, if_false] at heq
        have hchain2 : List.Chain' (fun a b => a.end_char ≤ b.start_char + ov)
            (acc ++ [⟨chunkContent text cs mincs start, start,
              chunkEnd2 text cs mincs start, cid, none⟩]) := by
          rw [List.chain'_append]
          refine ⟨hchain, List.chain'_singleton _, ?_⟩
          intro x hx y hy
          simp only [List.head?_cons, Option.mem_def, Option.some.injEq] at hy
          subst hy
          exact hlast x hx
        by_cases hN : text.length ≤ chunkEnd2 text cs mincs start
        · rw [if_pos hN] at heq
          injection heq with heq
          exact heq ▸ hchain2
        · rw [if_neg hN] at heq
          refine ih _ _ _ _ heq hchain2 ?_
          intro c hc
          rw [List.getLast?_concat] at hc
          injection hc with hc
          subst hc
          show chunkEnd2 text cs mincs start ≤
            chunkEnd2 text cs mincs start - ov + ov
          omega
    · rw [if_neg hs] at heq
      injection heq with heq
      exact heq ▸ hchain

/-- The parameter guard never clamps `chunk_size` below
`min_chunk_size`. -/
theorem clampParams_fst_ge (cs ov mincs maxcs : Nat) :
    mincs ≤ (clampParams cs ov mincs maxcs).1 := by
  unfold clampParams
  dsimp only
  split_ifs <;> omega

/-- For `min_chunk_size ≤ max_chunk_size`, the clamped `chunk_size`
stays at or below `max_chunk_size`. -/
theorem clampParams_fst_le (cs ov mincs maxcs : Nat) (h : mincs ≤ maxcs) :
    (clampParams cs ov mincs maxcs).1 ≤ maxcs := by
  unfold clampParams
  dsimp only
  split_ifs <;> omega

/-- When the configured overlap is below `chunk_size`, the guard keeps
it. -/
theorem clampParams_snd_eq (cs ov mincs maxcs : Nat) (h : ov < cs) :
    (clampParams cs ov mincs maxcs).2 = ov := by
  unfold clampParams
  dsimp only
  split_ifs <;> omega

/-- Claim C5, first part and amended second part: every chunk returned
by `chunk_text` has `start_char < end_char`, and — provided the
configured overlap does not exceed `min_chunk_size` — every consecutive
pair satisfies `chunks[i].end_char ≤ chunks[i+1].start_char + overlap`
(equivalently `chunks[i+1].start_char ≥ chunks[i].end_char − overlap`).
With `min_chunk_size < overlap` the pair inequality can fail (see the
counterexample): skipped all-whitespace iterations move `start`
backwards by `overlap − min_chunk_size` at a time. -/
theorem chunk_text_ordered (text : List Char) (cs ov mincs maxcs fuel : Nat)
    (res : List TChunk) (heq : chunk_text text cs ov mincs maxcs fuel = some res) :
    (∀ c ∈ res, c.start_char < c.end_char) ∧
    (ov < cs → ov ≤ mincs →
      List.Chain' (fun a b => a.end_char ≤ b.start_char + ov) res) := by
  unfold chunk_text at heq
  by_cases h0 : (text.isEmpty || decide ((stripEnds text).length = 0)) = true
  · rw [if_pos h0] at heq
    injection heq with heq
    subst heq
    exact ⟨fun c hc => absurd hc (List.not_mem_nil c), fun _ _ => List.chain'_nil⟩
  · rw [if_neg h0] at heq
    dsimp only at heq
    constructor
    · exact chunkLoop_start_lt text _ _ mincs fuel 0 0 [] res heq
        (fun c hc => absurd hc (List.not_mem_nil c))
    · intro hovcs hovm
      have hsnd := clampParams_snd_eq cs ov mincs maxcs hovcs
      rw [hsnd] at heq
      exact chunkLoop_chain text _ ov mincs hovm fuel 0 0 [] res heq
        List.chain'_nil (fun c hc => by cases hc)

/-- Claim C6, amended: for valid sizes
(`min_chunk_size ≤ max_chunk_size`), every chunk returned by
`chunk_text` satisfies `len(text) ≤ end_char − start_char ≤
max_chunk_size + 1`, and every chunk except possibly the last spans at
least `min_chunk_size` characters (`min_chunk_size ≤ end_char −
start_char`).  The *stripped* chunk text itself can be shorter than
`min_chunk_size`, and one character longer than `max_chunk_size` (see
the counterexample). -/
theorem chunk_text_size_bounds (text : List Char)
    (cs ov mincs maxcs fuel : Nat) (res : List TChunk)
    (hmm2 : mincs ≤ maxcs)
    (heq : chunk_text text cs ov mincs maxcs fuel = some res) :
    (∀ c ∈ res, c.text.length ≤ c.end_char - c.start_char ∧
                c.end_char - c.start_char ≤ maxcs + 1) ∧
    (∀ c ∈ res.dropLast, mincs ≤ c.end_char - c.start_char) := by
  unfold chunk_text at heq
  by_cases h0 : (text.isEmpty || decide ((stripEnds text).length = 0)) = true
  · rw [if_pos h0] at heq
    injection heq with heq
    subst heq
    exact ⟨fun c hc => absurd hc (List.not_mem_nil c),
           fun c hc => absurd hc (List.not_mem_nil c)⟩
  · rw [if_neg h0] at heq
    dsimp only at heq
    have hge := clampParams_fst_ge cs ov mincs maxcs
    have hle := clampParams_fst_le cs ov mincs maxcs hmm2
    have hmain := chunkLoop_size_bounds text
      (clampParams cs ov mincs maxcs).1 (clampParams cs ov mincs maxcs).2 mincs
      hge fuel 0 0 [] res heq
      (fun c hc => absurd hc (List.not_mem_nil c))
      (fun c hc => absurd hc (List.not_mem_nil c))
    refine ⟨fun c hc => ?_, hmain.2⟩
    have := hmain.1 c hc
    omega

set_option maxRecDepth 8000 in
/-- Claim C5, counterexample: on `dipText` with `chunk_size 8`,
`overlap 4`, `min_chunk_size 2`, `max_chunk_size 8` (all guards
satisfied) the run terminates with four chunks, and the fourth starts
at 10 while the third ends at 16: `10 < 16 − 4`, violating
`chunks[i+1].start_char ≥ chunks[i].end_char − overlap`. -/
theorem chunk_text_overlap_violated :
    chunk_text dipText 8 4 2 8 6 = some dipChunks ∧
    (10 : Nat) + 4 < 16 := by
  constructor
  · rfl
  · decide

set_option maxRecDepth 8000 in
/-- Claim C6, counterexample: on `shortChunkText` (params 8/2/4/8) the
*first* chunk's stripped text `"ab"` has length 2 < min_chunk_size = 4
although it is not the last chunk; and on `longChunkText` (params
8/4/2/8, so chunk_size = max_chunk_size = 8) the first chunk's text
`"abcdefgh."` has length 9 > max_chunk_size, because an accepted break
point can exceed `start + chunk_size` by one. -/
theorem chunk_text_size_violated :
    chunk_text shortChunkText 8 2 4 8 10 = some shortChunks ∧
    ("ab".data).length < 4 ∧
    chunk_text longChunkText 8 4 2 8 10 = some longChunks ∧
    8 < ("abcdefgh.".data).length := by
  refine ⟨?_, by decide, ?_, by decide⟩
  · rfl
  · rfl

set_option maxRecDepth 8000 in
/-- Witness for C5 on a concrete run with `overlap ≤ min_chunk_size`. -/
theorem chunk_text_ordered_witness :
    (∀ c ∈ witnessChunks, c.start_char < c.end_char) ∧
    (3 < 10 → 3 ≤ 4 →
      List.Chain' (fun a b => a.end_char ≤ b.start_char + 3) witnessChunks) :=
  chunk_text_ordered witnessText 10 3 4 10 20 witnessChunks (by rfl)

set_option maxRecDepth 8000 in
/-- Witness for C6 on a concrete run. -/
theorem chunk_text_size_bounds_witness :
    (∀ c ∈ shortChunks, c.text.length ≤ c.end_char - c.start_char ∧
                c.end_char - c.start_char ≤ 8 + 1) ∧
    (∀ c ∈ shortChunks.dropLast, 4 ≤ c.end_char - c.start_char) :=
  chunk_text_size_bounds shortChunkText 8 2 4 8 10 shortChunks (by decide) (by rfl)

/-! ## Repeated header/footer removal (C4) -/

/-- `splitOnChar` never returns an empty list of parts. -/
theorem splitOnChar_ne_nil (sep : Char) :
    ∀ (l : List Char), splitOnChar sep l ≠ []
  | [] => by simp [splitOnChar]
  | c :: cs => by
    rw [splitOnChar]
    by_cases hc : c = sep
    · rw [if_pos hc]
      simp
    · rw [if_neg hc]
      cases h : splitOnChar sep cs <;> simp

/-- Joining the split parts restores the text. -/
theorem joinLines_splitOnChar :
    ∀ (l : List Char), joinLines (splitOnChar '\n' l) = l
  | [] => rfl
  | c :: cs => by
    have ih := joinLines_splitOnChar cs
    rw [splitOnChar]
    by_cases hc : c = '\n'
    · rw [if_pos hc]
      subst hc
      cases h : splitOnChar '\n' cs with
      | nil => exact absurd h (splitOnChar_ne_nil '\n' cs)
      | cons p ps =>
        rw [h] at ih
        exact congrArg (List.cons '\n') ih
    · rw [if_neg hc]
      cases h : splitOnChar '\n' cs with
      | nil => exact absurd h (splitOnChar_ne_nil '\n' cs)
      | cons p ps =>
        rw [h] at ih
        cases ps with
        | nil => exact congrArg (List.cons c) ih
        | cons q qs => exact congrArg (List.cons c) ih

/-- Joining the split lines restores the text. -/
theorem joinLines_splitLines (l : List Char) :
    joinLines (splitLines l) = l :=
  joinLines_splitOnChar l

/-- The claim's boilerplate test agrees with the source's (for
`min_repeats = 3`). -/
theorem specIsBoilerplate_eq (lines : List (List Char)) (form : List Char) :
    specIsBoilerplate lines form = isBoilerplate lines 3 form := by
  cases form <;>
    simp [specIsBoilerplate, isBoilerplate, countForm, Nat.succ_le_iff]

/-- When no line qualifies, the claim-side loop keeps every line. -/
theorem specRemoveLoop_id (lines : List (List Char)) :
    ∀ (rest pre : List (List Char)),
      (∀ l ∈ rest, isBoilerplate lines 3 (normLine l) = false) →
      specRemoveLoop lines pre rest = rest
  | [], pre, h => rfl
  | l :: ls, pre, h => by
    rw [specRemoveLoop]
    have hb := h l (List.mem_cons_self l ls)
    rw [if_neg (by rw [specIsBoilerplate_eq, hb]; simp)]
    rw [specRemoveLoop_id lines ls (pre ++ [l])
      (fun x hx => h x (List.mem_cons_of_mem l hx))]

/-- The source's seen-set filtering loop computes the claim's
first-occurrence filtering: `seen` holds exactly the boilerplate forms
occurring in the already-processed prefix `pre`. -/
theorem removeBoilerAux_eq_spec (lines : List (List Char)) :
    ∀ (rest seen pre : List (List Char)),
      (∀ f, f ∈ seen ↔
        (isBoilerplate lines 3 f = true ∧ ∃ p ∈ pre, normLine p = f)) →
      removeBoilerAux lines 3 seen rest = specRemoveLoop lines pre rest
  | [], seen, pre, hinv => rfl
  | l :: ls, seen, pre, hinv => by
    rw [removeBoilerAux, specRemoveLoop]
    by_cases hb : isBoilerplate lines 3 (normLine l) = true
    · rw [if_pos hb]
      by_cases hseen : normLine l ∈ seen
      · rw [if_pos hseen]
        obtain ⟨p, hp, hpf⟩ := ((hinv _).mp hseen).2
        have hall : pre.all (fun l2 => !(normLine l2 = normLine l)) = false := by
          rw [List.all_eq_false]
          exact ⟨p, hp, by simp [hpf]⟩
        rw [if_pos (by rw [specIsBoilerplate_eq, hb, hall]; rfl)]
        refine removeBoilerAux_eq_spec lines ls seen (pre ++ [l]) ?_
        intro f
        rw [hinv f]
        constructor
        · rintro ⟨hbf, p2, hp2, hpf2⟩
          exact ⟨hbf, p2, List.mem_append_left _ hp2, hpf2⟩
        · rintro ⟨hbf, p2, hp2, hpf2⟩
          refine ⟨hbf, ?_⟩
          rcases List.mem_append.mp hp2 with h2 | h2
          · exact ⟨p2, h2, hpf2⟩
          · rcases List.mem_singleton.mp h2 with rfl
            exact ⟨p, hp, by rw [hpf, hpf2]⟩
      · rw [if_neg hseen]
        have hall : pre.all (fun l2 => !(normLine l2 = normLine l)) = true := by
          rw [List.all_eq_true]
          intro l2 hl2
          by_contra hne
          simp only [Bool.not_eq_true, Bool.not_eq_false'] at hne
          exact hseen ((hinv _).mpr ⟨hb, l2, hl2, by simpa using hne⟩)
        rw [if_neg (by rw [specIsBoilerplate_eq, hb, hall]; simp)]
        have heq := removeBoilerAux_eq_spec lines ls (normLine l :: seen) (pre ++ [l]) ?_
        · rw [heq]
        · intro f
          constructor
          · intro hf
            rcases List.mem_cons.mp hf with rfl | hf
            · exact ⟨hb, l, List.mem_append_right _ (List.mem_singleton_self l), rfl⟩
            · obtain ⟨hbf, p2, hp2, hpf2⟩ := (hinv f).mp hf
              exact ⟨hbf, p2, List.mem_append_left _ hp2, hpf2⟩
          · rintro ⟨hbf, p2, hp2, hpf2⟩
            rcases List.mem_append.mp hp2 with h2 | h2
            · exact List.mem_cons_of_mem _ ((hinv f).mpr ⟨hbf, p2, h2, hpf2⟩)
            · rcases List.mem_singleton.mp h2 with rfl
              rw [← hpf2]
              exact List.mem_cons_self _ _
    · rw [if_neg hb]
      rw [if_neg (by
        rw [specIsBoilerplate_eq]
        simp only [Bool.not_eq_true] at hb
        rw [hb]
        simp)]
      have heq := removeBoilerAux_eq_spec lines ls seen (pre ++ [l]) ?_
      · rw [heq]
      · intro f
        rw [hinv f]
        constructor
        · rintro ⟨hbf, p2, hp2, hpf2⟩
          exact ⟨hbf, p2, List.mem_append_left _ hp2, hpf2⟩
        · rintro ⟨hbf, p2, hp2, hpf2⟩
          refine ⟨hbf, ?_⟩
          rcases List.mem_append.mp hp2 with h2 | h2
          · exact ⟨p2, h2, hpf2⟩
          · rcases List.mem_singleton.mp h2 with rfl
            rw [← hpf2] at hbf
            exact absurd hbf hb

/-- Claim C4, counterexample: the line `hi` occurs three times with a
trimmed lowercased form of length 2 < 100, yet nothing is removed
because the text has fewer than `min_repeats * 2 = 6` lines; and the
empty line occurs three times with length 0 < 100, yet nothing is
removed because empty forms are never counted. -/
theorem remove_repeated_claim_fails :
    remove_repeated_headers_footers ("hi\nhi\nhi".data) 3 = "hi\nhi\nhi".data ∧
    countForm (splitLines ("hi\nhi\nhi".data)) ("hi".data) = 3 ∧
    remove_repeated_headers_footers ("a\n\nb\n\nc\n\nd".data) 3 =
      "a\n\nb\n\nc\n\nd".data ∧
    countForm (splitLines ("a\n\nb\n\nc\n\nd".data)) [] = 3 := by
  decide

/-- Claim C4, amended: for every text, `remove_repeated_headers_footers`
equals the claim-side procedure in which a text with fewer than six
lines is returned unchanged, a line counts as boilerplate exactly when
its trimmed lowercased form is *non-empty*, shorter than 100 characters
and occurs at least three times, the first occurrence of each
boilerplate line is retained and the subsequent ones removed. -/
theorem remove_repeated_eq_spec (text : List Char) :
    remove_repeated_headers_footers text 3 = specRemoveRepeated text := by
  unfold remove_repeated_headers_footers specRemoveRepeated
  dsimp only
  by_cases hlen : (splitLines text).length < 3 * 2
  · rw [if_pos hlen, if_pos (show (splitLines text).length < 6 by omega)]
  · rw [if_neg hlen, if_neg (show ¬(splitLines text).length < 6 by omega)]
    by_cases hall : (splitLines text).all
        (fun l => !(isBoilerplate (splitLines text) 3 (normLine l))) = true
    · rw [if_pos hall]
      have hid : specRemoveLoop (splitLines text) [] (splitLines text) =
          splitLines text := by
        refine specRemoveLoop_id (splitLines text) (splitLines text) [] ?_
        intro l hl
        have := List.all_eq_true.mp hall l hl
        simpa using this
      rw [hid, joinLines_splitLines]
    · rw [if_neg hall]
      rw [removeBoilerAux_eq_spec (splitLines text) (splitLines text) [] []
        (fun f => by simp)]

/-- **C3**: the normalizer is not idempotent.  On `"a \x00\nb"` the
first pass rstrips lines (step 3) *before* removing control characters
(step 4), so the NUL byte shields the trailing space of the first line:
the first pass returns `"a \nb"`, and only the second pass — whose
step 3 now sees the space at the end of the line — removes it,
returning `"a\nb"`.  Hence
`normalize_text (normalize_text x) ≠ normalize_text x`. -/
theorem normalize_not_idempotent :
    normalize_text ['a', ' ', '\x00', '\n', 'b'] = ['a', ' ', '\n', 'b'] ∧
    normalize_text (normalize_text ['a', ' ', '\x00', '\n', 'b'])
      = ['a', '\n', 'b'] ∧
    normalize_text (normalize_text ['a', ' ', '\x00', '\n', 'b'])
      ≠ normalize_text ['a', ' ', '\x00', '\n', 'b'] := by
  refine ⟨?_, ?_, ?_⟩ <;> decide

/-! ## The LRU cache (C10) -/

section LRU

variable {K V : Type} [DecidableEq K]

/-- `find?` by key commutes with forgetting timestamps. -/
theorem find?_map_dropTime (k : K) :
    ∀ (g : List (K × V × Nat)),
      ((g.map dropTime).find? (fun e => e.1 = k)) =
        (g.find? (fun e => e.1 = k)).map dropTime
  | [] => rfl
  | e :: g => by
    by_cases hk : e.1 = k
    · simp [List.find?, dropTime, hk]
    · simp only [List.map_cons, List.find?, dropTime]
      rw [decide_eq_false hk]
      exact find?_map_dropTime k g

/-- `filter` by key commutes with forgetting timestamps. -/
theorem filter_map_dropTime (k : K) :
    ∀ (g : List (K × V × Nat)),
      ((g.map dropTime).filter (fun e => ¬e.1 = k)) =
        (g.filter (fun e => ¬e.1 = k)).map dropTime
  | [] => rfl
  | e :: g => by
    have ih := filter_map_dropTime k g
    simp only [decide_not] at ih
    by_cases hk : e.1 = k <;>
      simp [List.filter_cons, dropTime, hk, ih]

/-- `any` by key commutes with forgetting timestamps. -/
theorem any_map_dropTime (k : K) :
    ∀ (g : List (K × V × Nat)),
      ((g.map dropTime).any (fun e => e.1 = k)) = g.any (fun e => e.1 = k)
  | [] => rfl
  | e :: g => by
    by_cases hk : e.1 = k <;>
      simp [dropTime, hk, any_map_dropTime k g]

/-- Keys of the filtered entries are the filtered keys. -/
theorem keys_filter_ne (k : K) :
    ∀ (es : List (K × V)),
      ((es.filter (fun e => ¬e.1 = k)).map Prod.fst) =
        (es.map Prod.fst).filter (fun x => ¬x = k)
  | [] => rfl
  | e :: es => by
    have ih := keys_filter_ne k es
    simp only [decide_not] at ih
    by_cases hk : e.1 = k <;>
      simp [List.filter_cons, hk, ih]

/-- The tail commutes with `map`. -/
theorem tail_map {α β : Type} (f : α → β) (l : List α) :
    (l.map f).tail = l.tail.map f := by
  cases l <;> rfl

/-- With distinct keys, filtering out a present key removes exactly one
entry. -/
theorem filter_ne_length (k : K) :
    ∀ (es : List (K × V)),
      (es.map Prod.fst).Nodup → es.any (fun e => e.1 = k) = true →
      (es.filter (fun e => ¬e.1 = k)).length + 1 = es.length
  | [], _, ha => by cases ha
  | e :: es, hnd, ha => by
    simp only [List.map_cons, List.nodup_cons] at hnd
    by_cases hk : e.1 = k
    · have hrest : es.filter (fun e => ¬e.1 = k) = es := by
        rw [List.filter_eq_self]
        intro a hamem
        simp only [decide_not, Bool.not_eq_true', decide_eq_false_iff_not]
        intro hak
        exact hnd.1 (by rw [hk, ← hak]; exact List.mem_map_of_mem Prod.fst hamem)
      rw [List.filter_cons, if_neg (by simp [hk]), hrest, List.length_cons]
    · have ha2 : es.any (fun e => e.1 = k) = true := by
        simp only [List.any_cons, Bool.or_eq_true, decide_eq_true_eq] at ha
        rcases ha with ha | ha
        · exact absurd ha hk
        · exact ha
      have ih := filter_ne_length k es hnd.2 ha2
      rw [List.filter_cons, if_pos (by simp [hk]), List.length_cons, List.length_cons]
      omega

/-- Appending a fresh key to duplicate-free keys keeps them
duplicate-free. -/
theorem nodup_keys_append {ks : List K} {k : K} (hnd : ks.Nodup)
    (hk : k ∉ ks) : (ks ++ [k]).Nodup := by
  refine List.Nodup.append hnd (List.nodup_singleton k) ?_
  intro a ha hb
  rw [List.mem_singleton] at hb
  exact hk (hb ▸ ha)

/-- Moving an already-present key to the most-recently-used end (with an
arbitrary new value) preserves the cache–ghost invariant. -/
theorem moveToEnd_inv (maxsize : Nat) (c : LRUCache K V)
    (g : List (K × V × Nat)) (t : Nat) (k : K) (v : V)
    (hmax : c.maxsize = maxsize) (hent : c.entries = g.map dropTime)
    (hnd : (c.entries.map Prod.fst).Nodup)
    (hlen : c.entries.length ≤ maxsize)
    (hpw : List.Pairwise (fun a b => a.2.2 < b.2.2) g)
    (hlt : ∀ e ∈ g, e.2.2 < t)
    (hany : c.entries.any (fun e => e.1 = k) = true) :
    LRUInv maxsize
      { c with entries := c.entries.filter (fun e => ¬e.1 = k) ++ [(k, v)] }
      (g.filter (fun e => ¬e.1 = k) ++ [(k, v, t)]) (t + 1) := by
  refine ⟨hmax, ?_, ?_, ?_, ?_, ?_⟩
  · show c.entries.filter (fun e => ¬e.1 = k) ++ [(k, v)]
      = (g.filter (fun e => ¬e.1 = k) ++ [(k, v, t)]).map dropTime
    rw [hent, filter_map_dropTime, List.map_append]
    rfl
  · show ((c.entries.filter (fun e => ¬e.1 = k) ++ [(k, v)]).map Prod.fst).Nodup
    simp only [List.map_append, keys_filter_ne, List.map_cons, List.map_nil]
    refine nodup_keys_append (hnd.filter _) ?_
    intro hmem
    simpa using List.of_mem_filter hmem
  · show (c.entries.filter (fun e => ¬e.1 = k) ++ [(k, v)]).length ≤ maxsize
    rw [List.length_append]
    have h1 := filter_ne_length k c.entries hnd hany
    simp only [List.length_cons, List.length_nil]
    omega
  · rw [List.pairwise_append]
    refine ⟨List.Pairwise.sublist (List.filter_sublist _) hpw, by simp, ?_⟩
    intro a ha b hb
    rw [List.mem_singleton] at hb
    subst hb
    exact hlt a (List.mem_of_mem_filter ha)
  · intro a ha
    rcases List.mem_append.mp ha with ha | ha
    · exact Nat.lt_succ_of_lt (hlt a (List.mem_of_mem_filter ha))
    · rw [List.mem_singleton] at ha
      subst ha
      exact Nat.lt_succ_self t

/-- One cache operation preserves the cache–ghost invariant. -/
theorem lruApply_inv (maxsize : Nat) (hms : 1 ≤ maxsize)
    (c : LRUCache K V) (g : List (K × V × Nat)) (t : Nat) (op : LRUOp K V)
    (h : LRUInv maxsize c g t) :
    LRUInv maxsize (lruApply c op) (ghostStep maxsize g op t) (t + 1) := by
  obtain ⟨hmax, hent, hnd, hlen, hpw, hlt⟩ := h
  cases op with
  | get k =>
    cases hfind : g.find? (fun e => e.1 = k) with
    | none =>
      have hfind' : c.entries.find? (fun e => e.1 = k) = none := by
        rw [hent, find?_map_dropTime, hfind]
        rfl
      have hC : lruApply c (LRUOp.get k) = c := by
        simp [lruApply, LRUCache.get, hfind']
      have hG : ghostStep maxsize g (LRUOp.get k) t = g := by
        simp [ghostStep, hfind]
      rw [hC, hG]
      exact ⟨hmax, hent, hnd, hlen, hpw,
        fun e he => Nat.lt_succ_of_lt (hlt e he)⟩
    | some e =>
      have hfind' : c.entries.find? (fun x => x.1 = k) = some (dropTime e) := by
        rw [hent, find?_map_dropTime, hfind]
        rfl
      have hany : c.entries.any (fun x => x.1 = k) = true := by
        have hp := List.find?_some hfind'
        exact List.any_eq_true.mpr
          ⟨dropTime e, List.mem_of_find?_eq_some hfind', hp⟩
      have hC : lruApply c (LRUOp.get k)
          = { c with
              entries := c.entries.filter (fun x => ¬x.1 = k) ++ [(k, e.2.1)] } := by
        simp [lruApply, LRUCache.get, hfind', dropTime]
      have hG : ghostStep maxsize g (LRUOp.get k) t
          = g.filter (fun x => ¬x.1 = k) ++ [(k, e.2.1, t)] := by
        simp [ghostStep, hfind]
      rw [hC, hG]
      exact moveToEnd_inv maxsize c g t k e.2.1 hmax hent hnd hlen hpw hlt hany
  | put k v =>
    by_cases hany : g.any (fun x => x.1 = k) = true
    · have hanyc : c.entries.any (fun x => x.1 = k) = true := by
        rw [hent, any_map_dropTime]
        exact hany
      have hC : lruApply c (LRUOp.put k v)
          = { c with
              entries := c.entries.filter (fun x => ¬x.1 = k) ++ [(k, v)] } := by
        simp [lruApply, LRUCache.put, hanyc]
      have hG : ghostStep maxsize g (LRUOp.put k v) t
          = g.filter (fun x => ¬x.1 = k) ++ [(k, v, t)] := by
        simp [ghostStep, hany]
      rw [hC, hG]
      exact moveToEnd_inv maxsize c g t k v hmax hent hnd hlen hpw hlt hanyc
    · have hanyg : g.any (fun x => x.1 = k) = false := by
        revert hany
        cases g.any (fun x => x.1 = k) <;> simp
      have hanyc : c.entries.any (fun x => x.1 = k) = false := by
        rw [hent, any_map_dropTime]
        exact hanyg
      have hknot : k ∉ c.entries.map Prod.fst := by
        intro hmem
        rcases List.mem_map.mp hmem with ⟨a, hamem, hak⟩
        have : c.entries.any (fun x => x.1 = k) = true :=
          List.any_eq_true.mpr ⟨a, hamem, by simp [hak]⟩
        rw [hanyc] at this
        cases this
      have hlenc : c.entries.length = g.length := by
        rw [hent, List.length_map]
      by_cases hcap : maxsize ≤ g.length
      · have hcapc : c.maxsize ≤ c.entries.length := by
          rw [hmax, hlenc]
          exact hcap
        have hC : lruApply c (LRUOp.put k v)
            = { c with entries := c.entries.tail ++ [(k, v)] } := by
          simp [lruApply, LRUCache.put, hanyc, hcapc]
        have hG : ghostStep maxsize g (LRUOp.put k v) t
            = g.tail ++ [(k, v, t)] := by
          simp [ghostStep, hanyg, hcap]
        rw [hC, hG]
        refine ⟨hmax, ?_, ?_, ?_, ?_, ?_⟩
        · show c.entries.tail ++ [(k, v)] = (g.tail ++ [(k, v, t)]).map dropTime
          rw [List.map_append, hent, tail_map]
          rfl
        · show ((c.entries.tail ++ [(k, v)]).map Prod.fst).Nodup
          simp only [List.map_append, List.map_cons, List.map_nil, ← tail_map]
          refine nodup_keys_append (List.Nodup.sublist (List.tail_sublist _) hnd) ?_
          intro hmem
          exact hknot (List.tail_subset _ hmem)
        · show (c.entries.tail ++ [(k, v)]).length ≤ maxsize
          rw [List.length_append, List.length_tail]
          simp only [List.length_cons, List.length_nil]
          omega
        · rw [List.pairwise_append]
          refine ⟨List.Pairwise.sublist (List.tail_sublist _) hpw, by simp, ?_⟩
          intro a ha b hb
          rw [List.mem_singleton] at hb
          subst hb
          exact hlt a (List.tail_subset _ ha)
        · intro a ha
          rcases List.mem_append.mp ha with ha | ha
          · exact Nat.lt_succ_of_lt (hlt a (List.tail_subset _ ha))
          · rw [List.mem_singleton] at ha
            subst ha
            exact Nat.lt_succ_self t
      · have hcapc : ¬c.maxsize ≤ c.entries.length := by
          rw [hmax, hlenc]
          exact hcap
        have hC : lruApply c (LRUOp.put k v)
            = { c with entries := c.entries ++ [(k, v)] } := by
          simp [lruApply, LRUCache.put, hanyc, hcapc]
        have hG : ghostStep maxsize g (LRUOp.put k v) t = g ++ [(k, v, t)] := by
          simp [ghostStep, hanyg, hcap]
        rw [hC, hG]
        refine ⟨hmax, ?_, ?_, ?_, ?_, ?_⟩
        · show c.entries ++ [(k, v)] = (g ++ [(k, v, t)]).map dropTime
          rw [List.map_append, hent]
          rfl
        · show ((c.entries ++ [(k, v)]).map Prod.fst).Nodup
          simp only [List.map_append, List.map_cons, List.map_nil]
          exact nodup_keys_append hnd hknot
        · show (c.entries ++ [(k, v)]).length ≤ maxsize
          rw [List.length_append]
          simp only [List.length_cons, List.length_nil]
          omega
        · rw [List.pairwise_append]
          refine ⟨hpw, by simp, ?_⟩
          intro a ha b hb
          rw [List.mem_singleton] at hb
          subst hb
          exact hlt a ha
        · intro a ha
          rcases List.mem_append.mp ha with ha | ha
          · exact Nat.lt_succ_of_lt (hlt a ha)
          · rw [List.mem_singleton] at ha
            subst ha
            exact Nat.lt_succ_self t

/-- Folding any operation list preserves the cache–ghost invariant. -/
theorem runFold_inv (maxsize : Nat) (hms : 1 ≤ maxsize) :
    ∀ (ops : List (LRUOp K V)) (c : LRUCache K V)
      (g : List (K × V × Nat)) (t : Nat),
      LRUInv maxsize c g t →
      LRUInv maxsize (ops.foldl lruApply c) (runGhost maxsize g t ops)
        (t + ops.length)
  | [], c, g, t, h => by simpa using h
  | op :: ops, c, g, t, h => by
    have hstep := lruApply_inv maxsize hms c g t op h
    have hrec := runFold_inv maxsize hms ops (lruApply c op)
      (ghostStep maxsize g op t) (t + 1) hstep
    simp only [List.foldl_cons, runGhost, List.length_cons]
    have harith : t + (ops.length + 1) = (t + 1) + ops.length := by omega
    rw [harith]
    exact hrec

/-- The freshly constructed cache satisfies the invariant. -/
theorem init_inv (maxsize : Nat) :
    LRUInv maxsize (⟨[], maxsize⟩ : LRUCache K V)
      ([] : List (K × V × Nat)) 0 :=
  ⟨rfl, rfl, List.nodup_nil, Nat.zero_le _, List.Pairwise.nil,
    fun e he => absurd he (List.not_mem_nil e)⟩

/-- Every run from the fresh cache satisfies the invariant. -/
theorem runLRU_inv (maxsize : Nat) (hms : 1 ≤ maxsize)
    (ops : List (LRUOp K V)) :
    LRUInv maxsize (runLRU maxsize ops) (runGhost maxsize [] 0 ops)
      ops.length := by
  have h := runFold_inv maxsize hms ops ⟨[], maxsize⟩ [] 0 (init_inv maxsize)
  simpa [runLRU] using h

/-- **C10**: for every capacity `maxsize ≥ 1` and every operation
sequence run from `LRUCache(maxsize)`, the cache holds at most
`maxsize` entries with pairwise-distinct keys and mirrors the
timestamp-ghost (so the head is the least recently used entry); a `get`
of a present key moves it to the most-recently-used end without
changing the number of entries; a `put` of a present key does the same
with the new value; and a `put` of a fresh key when the cache is full
evicts exactly the head entry — certified least recently used by the
ghost's strictly increasing timestamps — and appends the new one. -/
theorem lru_cache_invariants {K V : Type} [DecidableEq K] (maxsize : Nat)
    (hms : 1 ≤ maxsize) (ops : List (LRUOp K V)) :
    (runLRU maxsize ops).entries.length ≤ maxsize ∧
    ((runLRU maxsize ops).entries.map Prod.fst).Nodup ∧
    (runLRU maxsize ops).entries
      = (runGhost maxsize [] 0 ops).map dropTime ∧
    (∀ k e, (runLRU maxsize ops).entries.find? (fun x => x.1 = k) = some e →
      ((runLRU maxsize ops).get k).2.entries
          = (runLRU maxsize ops).entries.filter (fun x => ¬x.1 = k)
            ++ [(k, e.2)] ∧
        ((runLRU maxsize ops).get k).2.entries.length
          = (runLRU maxsize ops).entries.length) ∧
    (∀ k v, (runLRU maxsize ops).entries.any (fun x => x.1 = k) = true →
      ((runLRU maxsize ops).put k v).entries
          = (runLRU maxsize ops).entries.filter (fun x => ¬x.1 = k)
            ++ [(k, v)] ∧
        ((runLRU maxsize ops).put k v).entries.length
          = (runLRU maxsize ops).entries.length) ∧
    (∀ k v, (runLRU maxsize ops).entries.any (fun x => x.1 = k) = false →
      maxsize ≤ (runLRU maxsize ops).entries.length →
      ((runLRU maxsize ops).put k v).entries
          = (runLRU maxsize ops).entries.tail ++ [(k, v)] ∧
        ((runLRU maxsize ops).put k v).entries.length = maxsize ∧
        (∀ hd, (runGhost maxsize [] 0 ops).head? = some hd →
          ∀ e ∈ runGhost maxsize [] 0 ops, hd.2.2 ≤ e.2.2)) := by
  obtain ⟨hmax, hent, hnd, hlen, hpw, hlt⟩ := runLRU_inv maxsize hms ops
  refine ⟨hlen, hnd, hent, ?_, ?_, ?_⟩
  · intro k e hfind
    have hp := List.find?_some hfind
    have hany : (runLRU maxsize ops).entries.any (fun x => x.1 = k) = true :=
      List.any_eq_true.mpr ⟨e, List.mem_of_find?_eq_some hfind, hp⟩
    have h1 := filter_ne_length k (runLRU maxsize ops).entries hnd hany
    constructor
    · simp [LRUCache.get, hfind]
    · simp only [LRUCache.get, hfind]
      rw [List.length_append]
      simp only [List.length_cons, List.length_nil]
      omega
  · intro k v hany
    have h1 := filter_ne_length k (runLRU maxsize ops).entries hnd hany
    constructor
    · simp [LRUCache.put, hany]
    · simp only [LRUCache.put, hany, if_true]
      rw [List.length_append]
      simp only [List.length_cons, List.length_nil]
      omega
  · intro k v hanyf hcap
    have hcapc : (runLRU maxsize ops).maxsize
        ≤ (runLRU maxsize ops).entries.length := by
      rw [hmax]
      exact hcap
    have hput : ((runLRU maxsize ops).put k v).entries
        = (runLRU maxsize ops).entries.tail ++ [(k, v)] := by
      simp [LRUCache.put, hanyf, hcapc]
    refine ⟨hput, ?_, ?_⟩
    · rw [hput, List.length_append, List.length_tail]
      simp only [List.length_cons, List.length_nil]
      omega
    · intro hd hhd e he
      cases hg : runGhost maxsize [] 0 ops with
      | nil =>
        rw [hg] at hhd
        cases hhd
      | cons a gs =>
        rw [hg] at hhd he
        rw [hg] at hpw
        have hda : hd = a := by
          have := hhd
          simp only [List.head?_cons, Option.some.injEq] at this
          exact this.symm
        subst hda
        rcases List.mem_cons.mp he with he | he
        · subst he
          exact Nat.le_refl _
        · exact Nat.le_of_lt (List.rel_of_pairwise_cons hpw he)

/-- Closed instance of the C10 theorem: capacity 2, four operations
(`put 1`, `put 2`, `get 1`, `put 3`) over `Nat` keys and values. -/
theorem lru_cache_invariants_witness :
    (runLRU 2 [LRUOp.put (1 : Nat) (10 : Nat), LRUOp.put 2 20,
        LRUOp.get 1, LRUOp.put 3 30]).entries.length ≤ 2 ∧
    ((runLRU 2 [LRUOp.put (1 : Nat) (10 : Nat), LRUOp.put 2 20,
        LRUOp.get 1, LRUOp.put 3 30]).entries.map Prod.fst).Nodup ∧
    (runLRU 2 [LRUOp.put (1 : Nat) (10 : Nat), LRUOp.put 2 20,
        LRUOp.get 1, LRUOp.put 3 30]).entries
      = (runGhost 2 [] 0 [LRUOp.put (1 : Nat) (10 : Nat), LRUOp.put 2 20,
          LRUOp.get 1, LRUOp.put 3 30]).map dropTime ∧
    (∀ k e, (runLRU 2 [LRUOp.put (1 : Nat) (10 : Nat), LRUOp.put 2 20,
        LRUOp.get 1, LRUOp.put 3 30]).entries.find?
          (fun x => x.1 = k) = some e →
      ((runLRU 2 [LRUOp.put (1 : Nat) (10 : Nat), LRUOp.put 2 20,
          LRUOp.get 1, LRUOp.put 3 30]).get k).2.entries
          = (runLRU 2 [LRUOp.put (1 : Nat) (10 : Nat), LRUOp.put 2 20,
              LRUOp.get 1, LRUOp.put 3 30]).entries.filter
              (fun x => ¬x.1 = k) ++ [(k, e.2)] ∧
        ((runLRU 2 [LRUOp.put (1 : Nat) (10 : Nat), LRUOp.put 2 20,
            LRUOp.get 1, LRUOp.put 3 30]).get k).2.entries.length
          = (runLRU 2 [LRUOp.put (1 : Nat) (10 : Nat), LRUOp.put 2 20,
              LRUOp.get 1, LRUOp.put 3 30]).entries.length) ∧
    (∀ k v, (runLRU 2 [LRUOp.put (1 : Nat) (10 : Nat), LRUOp.put 2 20,
        LRUOp.get 1, LRUOp.put 3 30]).entries.any
          (fun x => x.1 = k) = true →
      ((runLRU 2 [LRUOp.put (1 : Nat) (10 : Nat), LRUOp.put 2 20,
          LRUOp.get 1, LRUOp.put 3 30]).put k v).entries
          = (runLRU 2 [LRUOp.put (1 : Nat) (10 : Nat), LRUOp.put 2 20,
              LRUOp.get 1, LRUOp.put 3 30]).entries.filter
              (fun x => ¬x.1 = k) ++ [(k, v)] ∧
        ((runLRU 2 [LRUOp.put (1 : Nat) (10 : Nat), LRUOp.put 2 20,
            LRUOp.get 1, LRUOp.put 3 30]).put k v).entries.length
          = (runLRU 2 [LRUOp.put (1 : Nat) (10 : Nat), LRUOp.put 2 20,
              LRUOp.get 1, LRUOp.put 3 30]).entries.length) ∧
    (∀ k v, (runLRU 2 [LRUOp.put (1 : Nat) (10 : Nat), LRUOp.put 2 20,
        LRUOp.get 1, LRUOp.put 3 30]).entries.any
          (fun x => x.1 = k) = false →
      2 ≤ (runLRU 2 [LRUOp.put (1 : Nat) (10 : Nat), LRUOp.put 2 20,
          LRUOp.get 1, LRUOp.put 3 30]).entries.length →
      ((runLRU 2 [LRUOp.put (1 : Nat) (10 : Nat), LRUOp.put 2 20,
          LRUOp.get 1, LRUOp.put 3 30]).put k v).entries
          = (runLRU 2 [LRUOp.put (1 : Nat) (10 : Nat), LRUOp.put 2 20,
              LRUOp.get 1, LRUOp.put 3 30]).entries.tail ++ [(k, v)] ∧
        ((runLRU 2 [LRUOp.put (1 : Nat) (10 : Nat), LRUOp.put 2 20,
            LRUOp.get 1, LRUOp.put 3 30]).put k v).entries.length = 2 ∧
        (∀ hd, (runGhost 2 [] 0 [LRUOp.put (1 : Nat) (10 : Nat),
            LRUOp.put 2 20, LRUOp.get 1, LRUOp.put 3 30]).head?
              = some hd →
          ∀ e ∈ runGhost 2 [] 0 [LRUOp.put (1 : Nat) (10 : Nat),
              LRUOp.put 2 20, LRUOp.get 1, LRUOp.put 3 30],
            hd.2.2 ≤ e.2.2)) :=
  lru_cache_invariants 2 (by decide)
    [LRUOp.put 1 10, LRUOp.put 2 20, LRUOp.get 1, LRUOp.put 3 30]

end LRU

end Astra
